import Mathlib

/-!
Shallow embedding of pygrep.py: a recursive-descent regular-expression
compiler that emits a finite state machine as three parallel arrays
(state kind, first successor, second successor), and an NFA searcher that
simulates the machine over a line of text.  Definitions mirror the source;
while loops and recursive descent are driven by an explicit fuel parameter.
-/

/-- A state of the finite state machine (class FSMState in the source):
state number, state type tag (a string that is "BR", "WC", or one literal
character), and the two successor state numbers (-1 is the END marker). -/
structure FSMState where
  state_num : Nat
  state_type : String
  next1 : Int
  next2 : Int
deriving DecidableEq, Repr

/-- get_state: the first state with the given number, if any. -/
def get_state (fsm : List FSMState) (n : Nat) : Option FSMState :=
  fsm.find? (fun s => s.state_num == n)

/-- In-place mutation of the first state with the given number
(Python mutates the object returned by get_state). -/
def updateFirst (fsm : List FSMState) (n : Nat) (f : FSMState → FSMState) : List FSMState :=
  match fsm with
  | [] => []
  | s :: rest => if s.state_num == n then f s :: rest else s :: updateFirst rest n f

/-- update_state: set both successors of the state with the given number
(used by compile with two non-None arguments). -/
def update_state (fsm : List FSMState) (n : Nat) (a b : Int) : List FSMState :=
  updateFirst fsm n (fun s => { s with next1 := a, next2 := b })

/-- set_state (source 123-135): update the state in place if present;
otherwise append it and then append BR,0,0 filler states for the numbers
between the new length and the requested number. -/
def set_state (fsm : List FSMState) (n : Nat) (k : String) (a b : Int) : List FSMState :=
  if (get_state fsm n).isSome then
    updateFirst fsm n (fun s => { s with state_type := k, next1 := a, next2 := b })
  else
    let fsm1 := fsm ++ [⟨n, k, a, b⟩]
    fsm1 ++ (List.range' fsm1.length (n - fsm1.length)).map (fun i => ⟨i, "BR", 0, 0⟩)

/-- The order Python sorted uses: the state_num key. -/
def numLE (s t : FSMState) : Prop := s.state_num ≤ t.state_num

instance : DecidableRel numLE := fun _ _ => Nat.decLe _ _

instance : IsTotal FSMState numLE := ⟨fun _ _ => Nat.le_total _ _⟩

instance : IsTrans FSMState numLE := ⟨fun _ _ _ => Nat.le_trans⟩

/-- States sorted by ascending state number (Python sorted with key
state_num; both sorts are stable, and state numbers are distinct in every
machine the compiler builds, so the results agree). -/
def sortStates (fsm : List FSMState) : List FSMState :=
  fsm.insertionSort numLE

/-- to_arrays (source 55-68): the three parallel arrays, indexed by state
number after sorting. -/
def to_arrays (fsm : List FSMState) : List String × List Int × List Int :=
  ((sortStates fsm).map (·.state_type),
   (sortStates fsm).map (·.next1),
   (sortStates fsm).map (·.next2))

/-- is_vocab (source 285-287): an ordinary character: not one of the seven
special characters and not the null terminator. -/
def is_vocab (c : Char) : Bool :=
  !("()\\*+?|".toList.contains c) && c != '\x00'

/-- How compilation fails: an error() call (the source writes a message and
exits), an uncaught IndexError from Python list indexing, or fuel
exhaustion (an artifact of the embedding, not reached by compile's fuel). -/
inductive CompErr where
  | syntaxError (msg : String)
  | indexError
  | fuelOut
deriving DecidableEq, Repr

/-- The mutable parser state of REcompiler: position in the pattern, next
state number to allocate, and the machine built so far.  The character
array is fixed at construction and passed separately. -/
structure CompSt where
  pos : Nat
  state_num : Nat
  fsm : List FSMState
deriving DecidableEq, Repr

/-- The convergence patch in expression (source 147-152 and 168-173): if
the previous state exists and its successors are equal, point next2 at the
target; then point next1 at the target. -/
def patchPrevious (fsm : List FSMState) (p : Nat) (v : Nat) : List FSMState :=
  match get_state fsm p with
  | none => fsm
  | some _ =>
    updateFirst fsm p (fun s =>
      if s.next1 == s.next2 then { s with next1 := (v : Int), next2 := (v : Int) }
      else { s with next1 := (v : Int) })

mutual

/-- expression() (source 137-175): parse a term; on a lookahead of the
alternation bar, patch the state before the left term, reserve a branch
number, parse the right side recursively, fill in the reserved branch, and
patch the state before the right side's end. -/
def expression (chars : List Char) : Nat → CompSt → Except CompErr (Nat × CompSt)
  | 0, _ => .error .fuelOut
  | fuel+1, st =>
    match term chars fuel st with
    | .error e => .error e
    | .ok (term1_state, st1) =>
      match chars.get? st1.pos with
      | none => .ok (term1_state, st1)
      | some c =>
        if c == '|' then
          let fsm2 := patchPrevious st1.fsm (st.state_num - 1) st1.state_num
          let previous2 := st1.state_num - 1
          let result_state := st1.state_num
          match expression chars fuel
              { pos := st1.pos + 1, state_num := st1.state_num + 1, fsm := fsm2 } with
          | .error e => .error e
          | .ok (term2_state, st2) =>
            let fsm3 := set_state st2.fsm result_state "BR" (term1_state : Int) (term2_state : Int)
            let fsm4 := patchPrevious fsm3 previous2 st2.state_num
            .ok (result_state, { pos := st2.pos, state_num := st2.state_num, fsm := fsm4 })
        else .ok (term1_state, st1)

/-- term() (source 177-189): one factor, then further factors while the
lookahead can begin one. -/
def term (chars : List Char) : Nat → CompSt → Except CompErr (Nat × CompSt)
  | 0, _ => .error .fuelOut
  | fuel+1, st =>
    match factor chars fuel st with
    | .error e => .error e
    | .ok (result_state, st1) =>
      match termLoop chars fuel st1 with
      | .error e => .error e
      | .ok st2 => .ok (result_state, st2)

/-- The while loop of term() (source 182-187). -/
def termLoop (chars : List Char) : Nat → CompSt → Except CompErr CompSt
  | 0, _ => .error .fuelOut
  | fuel+1, st =>
    match chars.get? st.pos with
    | some c =>
      if is_vocab c || c == '(' || c == '\\' then
        match factor chars fuel st with
        | .error e => .error e
        | .ok (_, st1) => termLoop chars fuel st1
      else .ok st
    | none => .ok st

/-- factor() (source 191-232): a primary with at most one quantifier. -/
def factor (chars : List Char) : Nat → CompSt → Except CompErr (Nat × CompSt)
  | 0, _ => .error .fuelOut
  | fuel+1, st =>
    match primary chars fuel st with
    | .error e => .error e
    | .ok (primary_state, st1) =>
      match chars.get? st1.pos with
      | none => .ok (primary_state, st1)
      | some c =>
        if c == '?' then
          let fsm1 := update_state st1.fsm primary_state
              ((st1.state_num + 1 : Nat) : Int) ((st1.state_num + 1 : Nat) : Int)
          let fsm2 := set_state fsm1 st1.state_num "BR" (primary_state : Int)
              ((st1.state_num + 1 : Nat) : Int)
          .ok (st1.state_num, { pos := st1.pos + 1, state_num := st1.state_num + 1, fsm := fsm2 })
        else if c == '+' then
          let fsm2 := set_state st1.fsm st1.state_num "BR" (primary_state : Int)
              ((st1.state_num + 1 : Nat) : Int)
          .ok (primary_state, { pos := st1.pos + 1, state_num := st1.state_num + 1, fsm := fsm2 })
        else if c == '*' then
          let fsm2 := set_state st1.fsm st1.state_num "BR"
              ((st1.state_num + 1 : Nat) : Int) (primary_state : Int)
          .ok (st1.state_num, { pos := st1.pos + 1, state_num := st1.state_num + 1, fsm := fsm2 })
        else .ok (primary_state, st1)

/-- primary() (source 234-283): escaped character, ordinary character or
wildcard, or parenthesized subexpression; anything else is an error. -/
def primary (chars : List Char) : Nat → CompSt → Except CompErr (Nat × CompSt)
  | 0, _ => .error .fuelOut
  | fuel+1, st =>
    match chars.get? st.pos with
    | none => .error (.syntaxError "Unexpected end of pattern")
    | some c =>
      if c == '\\' then
        match chars.get? (st.pos + 1) with
        | none => .error (.syntaxError "Escape at end of pattern")
        | some e =>
          let fsm1 := set_state st.fsm st.state_num (String.singleton e)
              ((st.state_num + 1 : Nat) : Int) ((st.state_num + 1 : Nat) : Int)
          .ok (st.state_num, { pos := st.pos + 2, state_num := st.state_num + 1, fsm := fsm1 })
      else if is_vocab c then
        let k := if c == '.' then "WC" else String.singleton c
        let fsm1 := set_state st.fsm st.state_num k
            ((st.state_num + 1 : Nat) : Int) ((st.state_num + 1 : Nat) : Int)
        .ok (st.state_num, { pos := st.pos + 1, state_num := st.state_num + 1, fsm := fsm1 })
      else if c == '(' then
        match expression chars fuel { st with pos := st.pos + 1 } with
        | .error e => .error e
        | .ok (r, st1) =>
          match chars.get? st1.pos with
          | some c2 =>
            if c2 == ')' then .ok (r, { st1 with pos := st1.pos + 1 })
            else .error (.syntaxError "Missing closing parenthesis")
          | none => .error (.syntaxError "Missing closing parenthesis")
      else .error (.syntaxError "Unexpected character")

end

/-- Fuel for the parser: its recursion depth grows by a bounded number of
frames per input character, so this bound is never reached. -/
def compileFuel (regexp : List Char) : Nat := 8 * regexp.length + 16

/-- compile() (source 96-111): parse one expression over the pattern plus
null terminator, require that the terminator was reached (the position is
read with plain indexing, so running past the end is an IndexError), patch
state 0 to the parsed entry, append the accepting state, and emit the
arrays. -/
def compile (regexp : List Char) : Except CompErr (List String × List Int × List Int) :=
  let chars := regexp ++ ['\x00']
  let st0 : CompSt := { pos := 0, state_num := 1, fsm := [⟨0, "BR", 0, 0⟩] }
  match expression chars (compileFuel regexp) st0 with
  | .error e => .error e
  | .ok (initial_state, st) =>
    match chars.get? st.pos with
    | none => .error .indexError
    | some c =>
      if c != '\x00' then
        .error (.syntaxError "Not a proper regular expression - unexpected characters at end")
      else
        let fsm1 := update_state st.fsm 0 (initial_state : Int) (initial_state : Int)
        let fsm2 := fsm1 ++ [⟨st.state_num, "BR", -1, -1⟩]
        .ok (to_arrays fsm2)

/-- The searcher over the three parallel arrays (class REsearcher). -/
structure REsearcher where
  state_type : List String
  next1 : List Int
  next2 : List Int
deriving DecidableEq, Repr

/-- Bundle compile's output triple into a searcher. -/
def mkSearcher (t : List String × List Int × List Int) : REsearcher :=
  ⟨t.1, t.2.1, t.2.2⟩

/-- The StateType model validation (source 6-12): the tag must be "BR",
"WC", or exactly one character. -/
def StateTypeOK (v : String) : Bool :=
  v == "BR" || v == "WC" || v.length == 1

/-- _validate_fsm (source 312-326): rebuild a model state by state over
the indices of state_type; any exception - an invalid kind tag, or an
IndexError because next1 or next2 is shorter - is fatal.  True means
construction succeeds and the searcher proceeds. -/
def validate_fsm (r : REsearcher) : Bool :=
  (List.range r.state_type.length).all (fun i =>
    decide (i < r.next1.length) && decide (i < r.next2.length)
      && StateTypeOK (r.state_type.getD i ""))

/-- Python list indexing: non-negative indices from the front, negative
indices from the back, and none for an IndexError. -/
def pyGet (l : List α) (i : Int) : Option α :=
  if 0 ≤ i then l.get? i.toNat
  else if 0 ≤ (l.length : Int) + i then l.get? ((l.length : Int) + i).toNat
  else none

/-- is_end_br_state (source 430-437): bounds-checked against state_type;
the state must be a Branch with both successors END.  next1 and next2 are
read only when the earlier conjuncts hold (Python short-circuits), and
reading past their length is an IndexError (none). -/
def is_end_br_state (r : REsearcher) (state : Int) : Option Bool :=
  if state < 0 || (r.state_type.length : Int) ≤ state then some false
  else if r.state_type.getD state.toNat "" != "BR" then some false
  else match r.next1.get? state.toNat with
    | none => none
    | some a =>
      if a != -1 then some false
      else match r.next2.get? state.toNat with
        | none => none
        | some b => some (b == -1)

/-- add_state_recursive (source 411-428): push a state to the front of the
deque, expanding branch states through both successors, with a visited set
guarding against cycles.  The fuel bounds the recursion depth; since every
level adds a fresh in-range state to the visited set, state count + 1 is
always enough.  none is an IndexError. -/
def add_state_recursive (r : REsearcher) :
    Nat → List Int → Int → List Int → Option (List Int × List Int)
  | 0, deq, _, visited => some (deq, visited)
  | fuel+1, deq, state, visited =>
    if state < 0 || visited.contains state then some (deq, visited)
    else
      let visited1 := state :: visited
      match is_end_br_state r state with
      | none => none
      | some true => some (state :: deq, visited1)
      | some false =>
        if state < (r.state_type.length : Int)
            && r.state_type.getD state.toNat "" == "BR" then
          match pyGet r.next1 state with
          | none => none
          | some n1v =>
            match add_state_recursive r fuel deq n1v visited1 with
            | none => none
            | some (d1, v1) =>
              match pyGet r.next2 state with
              | none => none
              | some n2v => add_state_recursive r fuel d1 n2v v1
        else some (state :: deq, visited1)

/-- add_state (source 403-409): ignore negative states, otherwise expand
with a fresh visited set. -/
def add_state (r : REsearcher) (deq : List Int) (state : Int) : Option (List Int) :=
  if state < 0 then some deq
  else match add_state_recursive r (r.state_type.length + 1) deq state [] with
    | none => none
    | some (d, _) => some d

/-- The SCAN marker separating deque generations (source 308). -/
def SCAN : Int := -1

/-- The loop state of match_from_position: the deque with its front at the
head, the input position, and the consumed-input flag. -/
structure MState where
  deq : List Int
  pos : Nat
  consumed : Bool
deriving DecidableEq, Repr

/-- Outcome of one iteration of the while loop of match_from_position. -/
inductive StepRes where
  | ret (b : Bool)
  | cont (s : MState)
  | crash
deriving DecidableEq, Repr

/-- One iteration of the while loop of match_from_position (source
364-399): pop the front item; handle the SCAN marker, the accepting state,
branch expansion, end of input, and character consumption in that order.
crash is an uncaught IndexError. -/
def stepMatch (r : REsearcher) (line : List Char) (s : MState) : StepRes :=
  match s.deq with
  | [] => .ret false
  | item :: rest =>
    if item == SCAN then
      if rest.isEmpty then .ret false
      else if s.pos < line.length then .cont ⟨rest ++ [SCAN], s.pos + 1, true⟩
      else .cont ⟨rest, s.pos, s.consumed⟩
    else
      match is_end_br_state r item with
      | none => .crash
      | some eb =>
        if eb && s.consumed then .ret true
        else if item < (r.state_type.length : Int) then
          match pyGet r.state_type item with
          | none => .crash
          | some t =>
            if t == "BR" then
              match pyGet r.next1 item with
              | none => .crash
              | some n1v =>
                match add_state r rest n1v with
                | none => .crash
                | some d1 =>
                  match pyGet r.next2 item with
                  | none => .crash
                  | some n2v =>
                    match add_state r d1 n2v with
                    | none => .crash
                    | some d2 => .cont ⟨d2, s.pos, s.consumed⟩
            else if line.length ≤ s.pos then .cont ⟨rest, s.pos, s.consumed⟩
            else if t == "WC" then
              match pyGet r.next1 item with
              | none => .crash
              | some n1v => .cont ⟨rest ++ [n1v], s.pos, s.consumed⟩
            else if t.length == 1 && t == String.singleton (line.getD s.pos ' ') then
              match pyGet r.next1 item with
              | none => .crash
              | some n1v => .cont ⟨rest ++ [n1v], s.pos, s.consumed⟩
            else .cont ⟨rest, s.pos, s.consumed⟩
        else .cont ⟨rest, s.pos, s.consumed⟩

/-- Result of a match attempt: the boolean the source returns, an uncaught
IndexError, or fuel exhaustion (an artifact of the embedding; the source
loop runs unbounded). -/
inductive MRes where
  | out (b : Bool)
  | crash
  | fuelOut
deriving DecidableEq, Repr

/-- The while loop of match_from_position, driven by fuel. -/
def matchLoop (r : REsearcher) (line : List Char) : Nat → MState → MRes
  | 0, _ => .fuelOut
  | fuel+1, s =>
    match stepMatch r line s with
    | .ret b => .out b
    | .crash => .crash
    | .cont s1 => matchLoop r line fuel s1

/-- match_from_position (source 353-401): seed the deque with the SCAN
marker and the closure of state 0, then run the loop from the start
offset with the consumed-input flag down. -/
def match_from_position (r : REsearcher) (line : List Char) (fuel : Nat)
    (start_pos : Nat) : MRes :=
  match add_state r [SCAN] 0 with
  | none => .crash
  | some d => matchLoop r line fuel ⟨d, start_pos, false⟩

/-- The for loop of search_pattern_in_line over start positions. -/
def searchLoop (r : REsearcher) (line : List Char) (fuel : Nat) : List Nat → MRes
  | [] => .out false
  | p :: ps =>
    match match_from_position r line fuel p with
    | .out true => .out true
    | .out false => searchLoop r line fuel ps
    | e => e

/-- search_pattern_in_line (source 345-351): try to match from every start
position 0 .. length - 1; true as soon as one matches. -/
def search_pattern_in_line (r : REsearcher) (fuel : Nat) (line : List Char) : MRes :=
  searchLoop r line fuel (List.range line.length)

/-- The search over a line terminates reporting b: some fuel is enough.
The Python loop is unbounded, so its verdict on a line is exactly a
verdict reached under some finite fuel. -/
def SearchReports (r : REsearcher) (line : List Char) (b : Bool) : Prop :=
  ∃ fuel, search_pattern_in_line r fuel line = .out b

/-! ### General lemmas about the searcher loop -/

/-- Fuel monotonicity of the match loop: a verdict reached under some fuel
is stable under more fuel. -/
theorem matchLoop_mono (r : REsearcher) (line : List Char) :
    ∀ f g s b, f ≤ g → matchLoop r line f s = .out b → matchLoop r line g s = .out b := by
  intro f
  induction f with
  | zero => intro g s b _ h; simp [matchLoop] at h
  | succ f ih =>
    intro g s b hfg h
    match g, hfg with
    | g+1, hfg =>
      rw [matchLoop] at h ⊢
      cases hs : stepMatch r line s with
      | ret b' => rw [hs] at h; exact h
      | crash => rw [hs] at h; exact h
      | cont s1 => rw [hs] at h; exact ih g s1 b (Nat.succ_le_succ_iff.mp hfg) h

/-- Fuel monotonicity of a single match attempt. -/
theorem match_from_position_mono (r : REsearcher) (line : List Char)
    (f g p : Nat) (b : Bool) (hfg : f ≤ g)
    (h : match_from_position r line f p = .out b) :
    match_from_position r line g p = .out b := by
  unfold match_from_position at h ⊢
  cases ha : add_state r [SCAN] 0 with
  | none => rw [ha] at h; exact absurd h (by simp)
  | some d => rw [ha] at h; exact matchLoop_mono r line f g _ b hfg h

/-- Fuel monotonicity of the search over start positions. -/
theorem searchLoop_mono (r : REsearcher) (line : List Char)
    (f g : Nat) (b : Bool) (hfg : f ≤ g) :
    ∀ ps, searchLoop r line f ps = .out b → searchLoop r line g ps = .out b := by
  intro ps
  induction ps with
  | nil => intro h; exact h
  | cons p ps ih =>
    intro h
    rw [searchLoop] at h ⊢
    cases hm : match_from_position r line f p with
    | out b' =>
      cases b' with
      | true =>
        rw [hm] at h
        rw [match_from_position_mono r line f g p true hfg hm]
        exact h
      | false =>
        rw [hm] at h
        rw [match_from_position_mono r line f g p false hfg hm]
        exact ih h
    | crash => rw [hm] at h; exact absurd h (by simp)
    | fuelOut => rw [hm] at h; exact absurd h (by simp)

/-- Fuel monotonicity of search_pattern_in_line. -/
theorem search_mono (r : REsearcher) (line : List Char) (f g : Nat) (b : Bool)
    (hfg : f ≤ g) (h : search_pattern_in_line r f line = .out b) :
    search_pattern_in_line r g line = .out b :=
  searchLoop_mono r line f g b hfg _ h

/-- The verdict of a terminating search is unique. -/
theorem SearchReports_unique (r : REsearcher) (line : List Char) (b1 b2 : Bool)
    (h1 : SearchReports r line b1) (h2 : SearchReports r line b2) : b1 = b2 := by
  obtain ⟨f1, h1⟩ := h1
  obtain ⟨f2, h2⟩ := h2
  rcases Nat.le_total f1 f2 with h | h
  · have := search_mono r line f1 f2 b1 h h1
    rw [this] at h2
    exact MRes.out.inj h2
  · have := search_mono r line f2 f1 b2 h h2
    rw [this] at h1
    exact (MRes.out.inj h1).symm

/-- At or past the end of the line with nothing consumed yet, one loop
iteration either returns false, crashes, or continues at the same position
with still nothing consumed: the branches that advance the position or
consume a character all require unread input. -/
theorem stepMatch_past_end (r : REsearcher) (line : List Char) (deq : List Int)
    (pos : Nat) (hpos : line.length ≤ pos) :
    stepMatch r line ⟨deq, pos, false⟩ = .ret false ∨
    stepMatch r line ⟨deq, pos, false⟩ = .crash ∨
    ∃ d2, stepMatch r line ⟨deq, pos, false⟩ = .cont ⟨d2, pos, false⟩ := by
  cases deq with
  | nil => exact Or.inl rfl
  | cons item rest =>
    rw [stepMatch]
    dsimp only
    by_cases h1 : item == SCAN
    · rw [if_pos h1]
      by_cases h2 : rest.isEmpty
      · rw [if_pos h2]; exact Or.inl rfl
      · rw [if_neg h2, if_neg (by omega : ¬ pos < line.length)]
        exact Or.inr (Or.inr ⟨rest, rfl⟩)
    · rw [if_neg h1]
      cases he : is_end_br_state r item with
      | none => exact Or.inr (Or.inl rfl)
      | some eb =>
        simp only [Bool.and_false, Bool.false_eq_true, if_false]
        by_cases hlen : item < (r.state_type.length : Int)
        · rw [if_pos hlen]
          cases ht : pyGet r.state_type item with
          | none => exact Or.inr (Or.inl rfl)
          | some t =>
            dsimp only
            by_cases hbr : t == "BR"
            · rw [if_pos hbr]
              cases hn1 : pyGet r.next1 item with
              | none => exact Or.inr (Or.inl rfl)
              | some n1v =>
                dsimp only
                cases ha1 : add_state r rest n1v with
                | none => exact Or.inr (Or.inl rfl)
                | some d1 =>
                  dsimp only
                  cases hn2 : pyGet r.next2 item with
                  | none => exact Or.inr (Or.inl rfl)
                  | some n2v =>
                    dsimp only
                    cases ha2 : add_state r d1 n2v with
                    | none => exact Or.inr (Or.inl rfl)
                    | some d2 => exact Or.inr (Or.inr ⟨d2, rfl⟩)
            · rw [if_neg hbr, if_pos hpos]
              exact Or.inr (Or.inr ⟨rest, rfl⟩)
        · rw [if_neg hlen]
          exact Or.inr (Or.inr ⟨rest, rfl⟩)

/-- The loop never reports a match from a state at or past the end of the
line with the consumed-input flag down: acceptance requires that flag. -/
theorem matchLoop_past_end (r : REsearcher) (line : List Char) :
    ∀ f deq pos, line.length ≤ pos →
      matchLoop r line f ⟨deq, pos, false⟩ ≠ .out true := by
  intro f
  induction f with
  | zero => intro deq pos h hcon; simp [matchLoop] at hcon
  | succ f ih =>
    intro deq pos h hcon
    rw [matchLoop] at hcon
    rcases stepMatch_past_end r line deq pos h with hs | hs | ⟨d2, hs⟩
    · rw [hs] at hcon; exact absurd hcon (by simp)
    · rw [hs] at hcon; exact absurd hcon (by simp)
    · rw [hs] at hcon; exact ih d2 pos h hcon

/-- A reported match needs at least one character after the start offset:
the accepting check fires only once the consumed-input flag was raised,
which happens only when the position advances over an unread character. -/
theorem match_needs_input (r : REsearcher) (line : List Char) (fuel start : Nat)
    (h : match_from_position r line fuel start = .out true) : start < line.length := by
  by_contra hlt
  rw [Nat.not_lt] at hlt
  unfold match_from_position at h
  cases ha : add_state r [SCAN] 0 with
  | none => rw [ha] at h; exact absurd h (by simp)
  | some d => rw [ha] at h; exact matchLoop_past_end r line fuel d start hlt h

/-! ### Concrete machines for the claims about specific patterns -/

/-- The array triple compile produces for the pattern (ab)+. -/
def abPlusT : List String × List Int × List Int :=
  (["BR", "a", "b", "BR", "BR"], [1, 2, 3, 1, -1], [1, 2, 3, 4, -1])

/-- The array triple compile produces for the pattern cat|dog. -/
def catDogT : List String × List Int × List Int :=
  (["BR", "c", "a", "t", "BR", "d", "o", "g", "BR"],
   [4, 2, 3, 8, 1, 6, 7, 8, -1], [4, 2, 3, 8, 5, 6, 7, 8, -1])

/-- The array triple compile produces for the pattern a*. -/
def aStarT : List String × List Int × List Int :=
  (["BR", "a", "BR", "BR"], [2, 2, 3, -1], [2, 2, 1, -1])

/-- C1 counterexample: compiling "(ab)+" and searching the line "aba" does
NOT report "no match": the search reports a match (the substring "ab"
matches at offset 0, and search is unanchored substring search), so the
claim as stated is false. -/
theorem C1_counterexample :
    compile "(ab)+".toList = .ok abPlusT ∧
    ¬ SearchReports (mkSearcher abPlusT) "aba".toList false := by
  refine ⟨rfl, fun hf => ?_⟩
  have ht : SearchReports (mkSearcher abPlusT) "aba".toList true := ⟨200, rfl⟩
  exact absurd (SearchReports_unique _ _ _ _ hf ht) (by simp)

/-- C1 (amended): compiling "(ab)+" and searching reports a match on the
line "ababab" and also reports a match on the line "aba" (the substring
"ab" already matches; the search is unanchored). -/
theorem C1_theorem :
    compile "(ab)+".toList = .ok abPlusT ∧
    SearchReports (mkSearcher abPlusT) "ababab".toList true ∧
    SearchReports (mkSearcher abPlusT) "aba".toList true :=
  ⟨rfl, ⟨200, rfl⟩, ⟨200, rfl⟩⟩

/-- C6: compiling "cat|dog" and searching reports a match on "I have a cat"
and on "I have a dog", and reports no match on "I have a bird". -/
theorem C6_theorem :
    compile "cat|dog".toList = .ok catDogT ∧
    SearchReports (mkSearcher catDogT) "I have a cat".toList true ∧
    SearchReports (mkSearcher catDogT) "I have a dog".toList true ∧
    SearchReports (mkSearcher catDogT) "I have a bird".toList false :=
  ⟨rfl, ⟨200, rfl⟩, ⟨200, rfl⟩, ⟨200, rfl⟩⟩

/-- C3: for the pattern "a\" (dangling backslash), the escape consumes the
appended null terminator as its literal, and compile then fails with an
uncaught IndexError at the trailing-input check - not with the SyntaxError
the dead branch at source line 250-251 was meant to raise. -/
theorem C3_theorem : compile "a\\".toList = .error CompErr.indexError := rfl

/-- C4: for the pattern "a*", searching the empty line reports no match,
and a match attempt from any start offset can report a match only when at
least one character of the line lies at or after that offset (the
consumed-input flag must be raised before the accepting state counts). -/
theorem C4_theorem :
    compile "a*".toList = .ok aStarT ∧
    SearchReports (mkSearcher aStarT) [] false ∧
    ∀ (line : List Char) (fuel start : Nat),
      match_from_position (mkSearcher aStarT) line fuel start = .out true →
        start < line.length :=
  ⟨rfl, ⟨1, rfl⟩, fun line fuel start h => match_needs_input _ line fuel start h⟩

/-- C4 witness: the match attempt for "a*" on the line "a" at offset 0
reports a match, and the theorem then yields 0 < 1. -/
theorem C4_witness :
    match_from_position (mkSearcher aStarT) "a".toList 50 0 = .out true ∧
    0 < ("a".toList).length :=
  ⟨rfl, C4_theorem.2.2 "a".toList 50 0 rfl⟩

/-- Validation passes exactly when every index of state_type is inside
next1 and next2 and carries a valid tag. -/
theorem validate_fsm_iff (k : List String) (n1 n2 : List Int) :
    validate_fsm ⟨k, n1, n2⟩ = true ↔
      ∀ i < k.length, i < n1.length ∧ i < n2.length ∧ StateTypeOK (k.getD i "") = true := by
  simp [validate_fsm, List.all_eq_true, List.mem_range, and_assoc]

/-- C2 (amended): constructing the Searcher reports a fatal structural
error exactly when some index below the length of the kind array is out of
range for next1 or next2, or holds an invalid kind tag.  Unequal lengths
as such are not detected: next1 or next2 longer than the kind array (or a
longer kind array with valid in-range prefix) passes validation. -/
theorem C2_theorem (k : List String) (n1 n2 : List Int) :
    validate_fsm ⟨k, n1, n2⟩ = false ↔
      ∃ i < k.length, n1.length ≤ i ∨ n2.length ≤ i ∨ StateTypeOK (k.getD i "") = false := by
  rw [← Bool.not_eq_true, validate_fsm_iff k n1 n2]
  constructor
  · intro h
    rcases not_forall.mp h with ⟨i, hi⟩
    rcases Classical.not_imp.mp hi with ⟨hilt, hrest⟩
    refine ⟨i, hilt, ?_⟩
    rcases not_and_or.mp hrest with h1 | h23
    · exact Or.inl (Nat.le_of_not_lt h1)
    · rcases not_and_or.mp h23 with h2 | h3
      · exact Or.inr (Or.inl (Nat.le_of_not_lt h2))
      · exact Or.inr (Or.inr (Bool.eq_false_iff.mpr h3))
  · rintro ⟨i, hilt, hcase⟩ hall
    obtain ⟨h1, h2, h3⟩ := hall i hilt
    rcases hcase with h | h | h
    · omega
    · omega
    · rw [h3] at h; exact absurd h (by simp)

/-- C2 counterexample: the arrays ["a"], [0,0], [0,0] are not all of equal
length, yet validation succeeds and the searcher is constructed - the
validation loop only runs over the indices of state_type, so longer next
arrays are silently accepted. -/
theorem C2_counterexample :
    (["a"] : List String).length ≠ ([0, 0] : List Int).length ∧
    validate_fsm ⟨["a"], [0, 0], [0, 0]⟩ = true ∧
    search_pattern_in_line ⟨["a"], [0, 0], [0, 0]⟩ 50 "a".toList = .out false :=
  ⟨by decide, rfl, rfl⟩

/-- C10: for every searcher whose arrays pass validation, searching the
empty line reports no match: the loop over start offsets is empty. -/
theorem C10_theorem (r : REsearcher) (fuel : Nat) (_h : validate_fsm r = true) :
    search_pattern_in_line r fuel [] = .out false := rfl

/-- C10 witness: a one-state accepting machine passes validation and its
search over the empty line reports no match. -/
theorem C10_witness :
    validate_fsm ⟨["BR"], [-1], [-1]⟩ = true ∧
    search_pattern_in_line ⟨["BR"], [-1], [-1]⟩ 0 [] = .out false :=
  ⟨rfl, C10_theorem ⟨["BR"], [-1], [-1]⟩ 0 rfl⟩

/-! ### Structural invariants maintained by the compiler -/

/-- Invariant of the machine list during parsing, relative to the next
state number to allocate: every state number is below it with non-negative
successors (END is only written by compile at the very end), the head is
the reserved entry state 0 with kind Branch, and every other state number
is positive. -/
def ListInv (fsm : List FSMState) (sn : Nat) : Prop :=
  (∀ s ∈ fsm, s.state_num < sn ∧ 0 ≤ s.next1 ∧ 0 ≤ s.next2) ∧
  ∃ a b rest, fsm = ⟨0, "BR", a, b⟩ :: rest ∧ ∀ s ∈ rest, 1 ≤ s.state_num

/-- Invariant of the full parser state. -/
def ParseInv (st : CompSt) : Prop :=
  1 ≤ st.state_num ∧ ListInv st.fsm st.state_num

theorem ListInv.mono {fsm : List FSMState} {sn m : Nat}
    (h : ListInv fsm sn) (hm : sn ≤ m) : ListInv fsm m := by
  obtain ⟨hb, a, b, rest, hsh, hrest⟩ := h
  exact ⟨fun s hs => ⟨Nat.lt_of_lt_of_le (hb s hs).1 hm, (hb s hs).2⟩, a, b, rest, hsh, hrest⟩

/-- A property preserved by the update function survives updateFirst. -/
theorem updateFirst_pres (P : FSMState → Prop) :
    ∀ (l : List FSMState) (n : Nat) (f : FSMState → FSMState),
      (∀ s ∈ l, P s) → (∀ s, P s → P (f s)) →
      ∀ s' ∈ updateFirst l n f, P s' := by
  intro l
  induction l with
  | nil => intro n f _ _ s' hs'; simp [updateFirst] at hs'
  | cons x rest ih =>
    intro n f hall hf s' hs'
    rw [updateFirst] at hs'
    by_cases hx : x.state_num == n
    · rw [if_pos hx] at hs'
      rcases List.mem_cons.mp hs' with h | h
      · rw [h]; exact hf x (hall x (List.mem_cons_self _ _))
      · exact hall s' (List.mem_cons_of_mem _ h)
    · rw [if_neg hx] at hs'
      rcases List.mem_cons.mp hs' with h | h
      · rw [h]; exact hall x (List.mem_cons_self _ _)
      · exact ih n f (fun s hs => hall s (List.mem_cons_of_mem _ hs)) hf s' h

/-- updateFirst preserves the list invariant when the update keeps state
numbers, keeps successors non-negative, and (if it can hit state 0) keeps
the kind. -/
theorem updateFirst_ListInv {fsm : List FSMState} {sn : Nat} (n : Nat)
    (f : FSMState → FSMState) (h : ListInv fsm sn)
    (hnum : ∀ s, (f s).state_num = s.state_num)
    (hnext : ∀ s, 0 ≤ s.next1 → 0 ≤ s.next2 → 0 ≤ (f s).next1 ∧ 0 ≤ (f s).next2)
    (hkind0 : n = 0 → ∀ s, s.state_num = 0 → (f s).state_type = s.state_type) :
    ListInv (updateFirst fsm n f) sn := by
  obtain ⟨hb, a, b, rest, hsh, hrest⟩ := h
  subst hsh
  have hbounds : ∀ s' ∈ updateFirst (⟨0, "BR", a, b⟩ :: rest) n f,
      s'.state_num < sn ∧ 0 ≤ s'.next1 ∧ 0 ≤ s'.next2 := by
    apply updateFirst_pres _ _ n f hb
    intro s hs
    exact ⟨(hnum s) ▸ hs.1, (hnext s hs.2.1 hs.2.2).1, (hnext s hs.2.1 hs.2.2).2⟩
  refine ⟨hbounds, ?_⟩
  rw [updateFirst]
  by_cases hn0 : (0 : Nat) == n
  · have hn0' : n = 0 := by simp only [beq_iff_eq] at hn0; omega
    rw [if_pos (by simpa using hn0)]
    have hk := hkind0 hn0' ⟨0, "BR", a, b⟩ rfl
    have hn := hnum ⟨0, "BR", a, b⟩
    refine ⟨(f ⟨0, "BR", a, b⟩).next1, (f ⟨0, "BR", a, b⟩).next2, rest, ?_, hrest⟩
    have : f ⟨0, "BR", a, b⟩ =
        ⟨0, "BR", (f ⟨0, "BR", a, b⟩).next1, (f ⟨0, "BR", a, b⟩).next2⟩ := by
      cases hfx : f ⟨0, "BR", a, b⟩
      rw [hfx] at hn hk
      simp only at hn hk
      simp [hn, hk]
    rw [this]
  · rw [if_neg (by simpa using hn0)]
    refine ⟨a, b, updateFirst rest n f, rfl, ?_⟩
    apply updateFirst_pres _ _ n f hrest
    intro s hs
    exact (hnum s) ▸ hs

/-- update_state preserves the list invariant when the written successors
are non-negative. -/
theorem update_state_ListInv {fsm : List FSMState} {sn : Nat} {n : Nat} {a b : Int}
    (h : ListInv fsm sn) (ha : 0 ≤ a) (hb : 0 ≤ b) :
    ListInv (update_state fsm n a b) sn := by
  apply updateFirst_ListInv n _ h
  · intro s; rfl
  · intro s _ _; exact ⟨ha, hb⟩
  · intro _ s _; rfl

/-- patchPrevious preserves the list invariant: it writes a non-negative
target into successors and touches nothing else. -/
theorem patchPrevious_ListInv {fsm : List FSMState} {sn : Nat} {p v : Nat}
    (h : ListInv fsm sn) : ListInv (patchPrevious fsm p v) sn := by
  rw [patchPrevious]
  cases get_state fsm p with
  | none => exact h
  | some s0 =>
    apply updateFirst_ListInv p _ h
    · intro s; by_cases hs : s.next1 == s.next2 <;> simp [hs]
    · intro s h1 h2
      by_cases hs : s.next1 == s.next2 <;>
        simp [hs, Int.ofNat_nonneg, h1, h2]
    · intro _ s _; by_cases hs : s.next1 == s.next2 <;> simp [hs]

/-- set_state preserves the list invariant for a positive state number
below the given bound. -/
theorem set_state_ListInv {fsm : List FSMState} {sn m n : Nat} {k : String} {a b : Int}
    (h : ListInv fsm sn) (hn : 1 ≤ n) (hnm : n < m) (hsm : sn ≤ m)
    (ha : 0 ≤ a) (hb : 0 ≤ b) : ListInv (set_state fsm n k a b) m := by
  rw [set_state]
  by_cases hf : (get_state fsm n).isSome
  · rw [if_pos hf]
    apply updateFirst_ListInv n _ (h.mono hsm)
    · intro s; rfl
    · intro s _ _; exact ⟨ha, hb⟩
    · intro hn0; omega
  · rw [if_neg hf]
    obtain ⟨hbnd, a0, b0, rest, hsh, hrest⟩ := h
    have hlen : 1 ≤ fsm.length := by rw [hsh]; simp
    constructor
    · intro s hs
      rcases List.mem_append.mp hs with hs1 | hs2
      · rcases List.mem_append.mp hs1 with hs3 | hs4
        · have := hbnd s hs3; exact ⟨by omega, this.2⟩
        · rw [List.mem_singleton.mp hs4]
          exact ⟨hnm, ha, hb⟩
      · obtain ⟨i, hi, hieq⟩ := List.mem_map.mp hs2
        rw [List.mem_range'_1] at hi
        rw [← hieq]
        refine ⟨?_, by simp, by simp⟩
        simp only [List.length_append, List.length_singleton] at hi
        show i < m
        omega
    · refine ⟨a0, b0, rest ++ [(⟨n, k, a, b⟩ : FSMState)] ++
        (List.range' (fsm ++ [(⟨n, k, a, b⟩ : FSMState)]).length
            (n - (fsm ++ [(⟨n, k, a, b⟩ : FSMState)]).length)).map
          (fun i => (⟨i, "BR", 0, 0⟩ : FSMState)), by rw [hsh]; simp, ?_⟩
      intro s hs
      rcases List.mem_append.mp hs with hs1 | hs2
      · rcases List.mem_append.mp hs1 with hs3 | hs4
        · exact hrest s hs3
        · rw [List.mem_singleton.mp hs4]; exact hn
      · obtain ⟨i, hi, hieq⟩ := List.mem_map.mp hs2
        rw [List.mem_range'_1] at hi
        rw [← hieq]
        simp only [List.length_append, List.length_singleton] at hi
        show 1 ≤ i
        omega

/-- Every parsing routine preserves the structural invariant and never
decreases the next state number. -/
theorem parse_inv (chars : List Char) :
    ∀ fuel : Nat,
      (∀ st r st', expression chars fuel st = .ok (r, st') → ParseInv st →
        ParseInv st' ∧ st.state_num ≤ st'.state_num) ∧
      (∀ st r st', term chars fuel st = .ok (r, st') → ParseInv st →
        ParseInv st' ∧ st.state_num ≤ st'.state_num) ∧
      (∀ st st', termLoop chars fuel st = .ok st' → ParseInv st →
        ParseInv st' ∧ st.state_num ≤ st'.state_num) ∧
      (∀ st r st', factor chars fuel st = .ok (r, st') → ParseInv st →
        ParseInv st' ∧ st.state_num ≤ st'.state_num) ∧
      (∀ st r st', primary chars fuel st = .ok (r, st') → ParseInv st →
        ParseInv st' ∧ st.state_num ≤ st'.state_num) := by
  intro fuel
  induction fuel with
  | zero =>
    refine ⟨?_, ?_, ?_, ?_, ?_⟩
    · intro st r st' h; rw [expression] at h; cases h
    · intro st r st' h; rw [term] at h; cases h
    · intro st st' h; rw [termLoop] at h; cases h
    · intro st r st' h; rw [factor] at h; cases h
    · intro st r st' h; rw [primary] at h; cases h
  | succ fuel ih =>
    obtain ⟨ihe, iht, ihl, ihf, ihp⟩ := ih
    refine ⟨?_, ?_, ?_, ?_, ?_⟩
    · -- expression
      intro st r st' h hst
      rw [expression] at h
      cases hterm : term chars fuel st with
      | error e => rw [hterm] at h; cases h
      | ok p =>
        obtain ⟨t1, st1⟩ := p
        rw [hterm] at h
        dsimp only at h
        obtain ⟨h1inv, h1le⟩ := iht st t1 st1 hterm hst
        cases hc : chars.get? st1.pos with
        | none => rw [hc] at h; cases h; exact ⟨h1inv, h1le⟩
        | some c =>
          rw [hc] at h
          dsimp only at h
          by_cases hch : c == '|'
          · rw [if_pos hch] at h
            cases hrec : expression chars fuel
                (⟨st1.pos + 1, st1.state_num + 1,
                  patchPrevious st1.fsm (st.state_num - 1) st1.state_num⟩ : CompSt) with
            | error e => rw [hrec] at h; cases h
            | ok q =>
              obtain ⟨t2, st2⟩ := q
              rw [hrec] at h
              cases h
              have h0 : 1 ≤ st.state_num := hst.1
              have h1 : 1 ≤ st1.state_num := le_trans h0 h1le
              have hmid : ParseInv (⟨st1.pos + 1, st1.state_num + 1,
                  patchPrevious st1.fsm (st.state_num - 1) st1.state_num⟩ : CompSt) :=
                ⟨Nat.le_succ_of_le h1, (patchPrevious_ListInv h1inv.2).mono (Nat.le_succ _)⟩
              obtain ⟨h2inv, h2le⟩ := ihe _ t2 st2 hrec hmid
              have h2le' : st1.state_num + 1 ≤ st2.state_num := h2le
              have hfsm3 : ListInv (set_state st2.fsm st1.state_num "BR"
                  ((t1 : Nat) : Int) ((t2 : Nat) : Int)) st2.state_num :=
                set_state_ListInv h2inv.2 h1 (by omega) (le_refl _)
                  (Int.natCast_nonneg _) (Int.natCast_nonneg _)
              exact ⟨⟨h2inv.1, patchPrevious_ListInv hfsm3⟩,
                (by omega : st.state_num ≤ st2.state_num)⟩
          · rw [if_neg hch] at h; cases h; exact ⟨h1inv, h1le⟩
    · -- term
      intro st r st' h hst
      rw [term] at h
      cases hfac : factor chars fuel st with
      | error e => rw [hfac] at h; cases h
      | ok p =>
        obtain ⟨r1, st1⟩ := p
        rw [hfac] at h
        dsimp only at h
        obtain ⟨h1inv, h1le⟩ := ihf st r1 st1 hfac hst
        cases hloop : termLoop chars fuel st1 with
        | error e => rw [hloop] at h; cases h
        | ok st2 =>
          rw [hloop] at h
          cases h
          obtain ⟨h2inv, h2le⟩ := ihl st1 _ hloop h1inv
          exact ⟨h2inv, le_trans h1le h2le⟩
    · -- termLoop
      intro st st' h hst
      rw [termLoop] at h
      cases hc : chars.get? st.pos with
      | none => rw [hc] at h; cases h; exact ⟨hst, le_refl _⟩
      | some c =>
        rw [hc] at h
        dsimp only at h
        by_cases hcc : is_vocab c || c == '(' || c == '\\'
        · rw [if_pos hcc] at h
          cases hfac : factor chars fuel st with
          | error e => rw [hfac] at h; cases h
          | ok p =>
            obtain ⟨r1, st1⟩ := p
            rw [hfac] at h
            dsimp only at h
            obtain ⟨h1inv, h1le⟩ := ihf st r1 st1 hfac hst
            obtain ⟨h2inv, h2le⟩ := ihl st1 st' h h1inv
            exact ⟨h2inv, le_trans h1le h2le⟩
        · rw [if_neg hcc] at h; cases h; exact ⟨hst, le_refl _⟩
    · -- factor
      intro st r st' h hst
      rw [factor] at h
      cases hp : primary chars fuel st with
      | error e => rw [hp] at h; cases h
      | ok p =>
        obtain ⟨p1, st1⟩ := p
        rw [hp] at h
        dsimp only at h
        obtain ⟨h1inv, h1le⟩ := ihp st p1 st1 hp hst
        have hsn1 : 1 ≤ st1.state_num := le_trans hst.1 h1le
        cases hc : chars.get? st1.pos with
        | none => rw [hc] at h; cases h; exact ⟨h1inv, h1le⟩
        | some c =>
          rw [hc] at h
          dsimp only at h
          by_cases h1 : c == '?'
          · rw [if_pos h1] at h
            cases h
            refine ⟨⟨Nat.le_succ_of_le hsn1, ?_⟩,
              (by omega : st.state_num ≤ st1.state_num + 1)⟩
            exact set_state_ListInv
              (update_state_ListInv h1inv.2 (Int.natCast_nonneg _) (Int.natCast_nonneg _))
              hsn1 (Nat.lt_succ_self _) (Nat.le_succ _)
              (Int.natCast_nonneg _) (Int.natCast_nonneg _)
          · rw [if_neg h1] at h
            by_cases h2 : c == '+'
            · rw [if_pos h2] at h
              cases h
              refine ⟨⟨Nat.le_succ_of_le hsn1, ?_⟩,
                (by omega : st.state_num ≤ st1.state_num + 1)⟩
              exact set_state_ListInv h1inv.2 hsn1 (Nat.lt_succ_self _) (Nat.le_succ _)
                (Int.natCast_nonneg _) (Int.natCast_nonneg _)
            · rw [if_neg h2] at h
              by_cases h3 : c == '*'
              · rw [if_pos h3] at h
                cases h
                refine ⟨⟨Nat.le_succ_of_le hsn1, ?_⟩,
                  (by omega : st.state_num ≤ st1.state_num + 1)⟩
                exact set_state_ListInv h1inv.2 hsn1 (Nat.lt_succ_self _) (Nat.le_succ _)
                  (Int.natCast_nonneg _) (Int.natCast_nonneg _)
              · rw [if_neg h3] at h; cases h; exact ⟨h1inv, h1le⟩
    · -- primary
      intro st r st' h hst
      rw [primary] at h
      cases hc : chars.get? st.pos with
      | none => rw [hc] at h; cases h
      | some c =>
        rw [hc] at h
        dsimp only at h
        have h0 : 1 ≤ st.state_num := hst.1
        by_cases h1 : c == '\\'
        · rw [if_pos h1] at h
          cases hc2 : chars.get? (st.pos + 1) with
          | none => rw [hc2] at h; cases h
          | some e =>
            rw [hc2] at h
            cases h
            refine ⟨⟨Nat.le_succ_of_le h0, ?_⟩,
              (Nat.le_succ _ : st.state_num ≤ st.state_num + 1)⟩
            exact set_state_ListInv hst.2 h0 (Nat.lt_succ_self _) (Nat.le_succ _)
              (Int.natCast_nonneg _) (Int.natCast_nonneg _)
        · rw [if_neg h1] at h
          by_cases h2 : is_vocab c
          · rw [if_pos h2] at h
            cases h
            refine ⟨⟨Nat.le_succ_of_le h0, ?_⟩,
              (Nat.le_succ _ : st.state_num ≤ st.state_num + 1)⟩
            exact set_state_ListInv hst.2 h0 (Nat.lt_succ_self _) (Nat.le_succ _)
              (Int.natCast_nonneg _) (Int.natCast_nonneg _)
          · rw [if_neg h2] at h
            by_cases h3 : c == '('
            · rw [if_pos h3] at h
              cases hrec : expression chars fuel
                  (⟨st.pos + 1, st.state_num, st.fsm⟩ : CompSt) with
              | error e => rw [hrec] at h; cases h
              | ok q =>
                obtain ⟨r1, st1⟩ := q
                rw [hrec] at h
                dsimp only at h
                have hmid : ParseInv (⟨st.pos + 1, st.state_num, st.fsm⟩ : CompSt) :=
                  ⟨hst.1, hst.2⟩
                obtain ⟨h1inv, h1le⟩ := ihe _ r1 st1 hrec hmid
                cases hc2 : chars.get? st1.pos with
                | none => rw [hc2] at h; cases h
                | some c2 =>
                  rw [hc2] at h
                  dsimp only at h
                  by_cases h4 : c2 == ')'
                  · rw [if_pos h4] at h
                    cases h
                    exact ⟨⟨h1inv.1, h1inv.2⟩, h1le⟩
                  · rw [if_neg h4] at h; cases h
            · rw [if_neg h3] at h; cases h

/-! ### From the sorted state list to the output arrays -/

theorem sortStates_perm (fsm : List FSMState) : List.Perm (sortStates fsm) fsm :=
  List.perm_insertionSort numLE fsm

theorem sortStates_sorted (fsm : List FSMState) : List.Sorted numLE (sortStates fsm) :=
  List.sorted_insertionSort numLE fsm

/-- Sorting a machine whose head is numbered 0 while every other state is
positive keeps that head in front. -/
theorem sortStates_head {x : FSMState} {rest : List FSMState}
    (hx : x.state_num = 0) (hrest : ∀ s ∈ rest, 1 ≤ s.state_num) :
    ∃ tail, sortStates (x :: rest) = x :: tail := by
  have hperm := sortStates_perm (x :: rest)
  have hsort := sortStates_sorted (x :: rest)
  cases hs : sortStates (x :: rest) with
  | nil =>
    rw [hs] at hperm
    exact absurd (hperm.symm.mem_iff.mp (List.mem_cons_self _ _)) (List.not_mem_nil _)
  | cons hd tail =>
    rw [hs] at hperm hsort
    have hhd : hd ∈ x :: rest := hperm.mem_iff.mp (List.mem_cons_self _ _)
    rcases List.mem_cons.mp hhd with heq | hmem
    · exact ⟨tail, by rw [heq]⟩
    · have hxmem : x ∈ hd :: tail := hperm.symm.mem_iff.mp (List.mem_cons_self _ _)
      rcases List.mem_cons.mp hxmem with hxeq | hxtail
      · exact ⟨tail, by rw [← hxeq]⟩
      · have hle : numLE hd x := (List.sorted_cons.mp hsort).1 x hxtail
        have h1 := hrest hd hmem
        unfold numLE at hle
        omega

/-- Sorting a machine with a unique state of strictly greatest number puts
it last, with everything in front strictly below it. -/
theorem sortStates_last {fsm : List FSMState} {acc : FSMState}
    (hmem : acc ∈ fsm)
    (hmax : ∀ s ∈ fsm, s ≠ acc → s.state_num < acc.state_num)
    (hcount : fsm.count acc = 1) :
    ∃ front, sortStates fsm = front ++ [acc] ∧
      ∀ s ∈ front, s.state_num < acc.state_num := by
  have hperm := sortStates_perm fsm
  have hsort := sortStates_sorted fsm
  have hne : sortStates fsm ≠ [] := by
    intro h0
    rw [h0] at hperm
    exact absurd (hperm.symm.mem_iff.mp hmem) (List.not_mem_nil _)
  have hdecomp := List.dropLast_append_getLast hne
  have hsort2 : ∀ s ∈ (sortStates fsm).dropLast,
      s.state_num ≤ ((sortStates fsm).getLast hne).state_num := by
    have hp := hsort
    rw [← hdecomp] at hp
    have hp2 := List.pairwise_append.mp hp
    intro s hsf
    exact hp2.2.2 s hsf _ (List.mem_singleton.mpr rfl)
  have hlastmem : (sortStates fsm).getLast hne ∈ fsm :=
    hperm.mem_iff.mp (List.getLast_mem hne)
  have hla : (sortStates fsm).getLast hne = acc := by
    by_contra hne2
    have h1 : ((sortStates fsm).getLast hne).state_num < acc.state_num :=
      hmax _ hlastmem hne2
    have hacc : acc ∈ sortStates fsm := hperm.symm.mem_iff.mp hmem
    rw [← hdecomp] at hacc
    rcases List.mem_append.mp hacc with hf | hl
    · have := hsort2 acc hf; omega
    · exact hne2 ((List.mem_singleton.mp hl).symm)
  have hcnt : ((sortStates fsm).dropLast).count acc = 0 := by
    have hc1 : (sortStates fsm).count acc = 1 := by
      rw [hperm.count_eq]; exact hcount
    rw [← hdecomp, List.count_append, hla] at hc1
    simp [List.count_singleton] at hc1
    omega
  refine ⟨(sortStates fsm).dropLast, by rw [← hla]; exact hdecomp.symm, ?_⟩
  intro s hsf
  have hsmem : s ∈ fsm := by
    apply hperm.mem_iff.mp
    rw [← hdecomp]
    exact List.mem_append_left _ hsf
  have hsne : s ≠ acc := by
    intro hseq
    rw [hseq] at hsf
    exact absurd (List.count_pos_iff.mpr hsf) (by omega)
  exact hmax s hsmem hsne

/-- Inversion of a successful compile: the parsed entry id and final
parser state; the output is the arrays of the patched machine plus the
appended accepting state, and the final state satisfies the invariant. -/
theorem compile_ok {p : List Char} {t : List String × List Int × List Int}
    (h : compile p = .ok t) :
    ∃ e st, expression (p ++ ['\x00']) (compileFuel p)
        (⟨0, 1, [⟨0, "BR", 0, 0⟩]⟩ : CompSt) = .ok (e, st) ∧ ParseInv st ∧
      t = to_arrays (update_state st.fsm 0 ((e : Nat) : Int) ((e : Nat) : Int) ++
        [⟨st.state_num, "BR", -1, -1⟩]) := by
  rw [compile] at h
  dsimp only at h
  cases hexp : expression (p ++ ['\x00']) (compileFuel p)
      (⟨0, 1, [⟨0, "BR", 0, 0⟩]⟩ : CompSt) with
  | error e => rw [hexp] at h; cases h
  | ok q =>
    obtain ⟨e, st⟩ := q
    rw [hexp] at h
    dsimp only at h
    have hinv0 : ParseInv (⟨0, 1, [⟨0, "BR", 0, 0⟩]⟩ : CompSt) := by
      refine ⟨le_refl 1, fun s hs => ?_, 0, 0, [], rfl, by simp⟩
      rw [List.mem_singleton.mp hs]
      exact ⟨Nat.zero_lt_one, le_refl 0, le_refl 0⟩
    have hinv := ((parse_inv (p ++ ['\x00']) (compileFuel p)).1 _ e st hexp hinv0).1
    cases hc : (p ++ ['\x00']).get? st.pos with
    | none => rw [hc] at h; cases h
    | some c =>
      rw [hc] at h
      dsimp only at h
      by_cases hcz : c != '\x00'
      · rw [if_pos hcz] at h; cases h
      · rw [if_neg hcz] at h
        cases h
        exact ⟨e, st, rfl, hinv, rfl⟩

/-- The machine behind the arrays of a successful compile: the patched
entry state 0, the parser's states (positive numbers below the final next
state number, non-negative successors), and the appended accepting
state. -/
theorem compile_arrays {p : List Char} {k : List String} {n1 n2 : List Int}
    (h : compile p = .ok (k, n1, n2)) :
    ∃ (e sn : Nat) (rest : List FSMState) (st : CompSt),
      1 ≤ sn ∧
      expression (p ++ ['\x00']) (compileFuel p)
        (⟨0, 1, [⟨0, "BR", 0, 0⟩]⟩ : CompSt) = .ok (e, st) ∧ st.state_num = sn ∧
      (∀ s ∈ rest, 1 ≤ s.state_num ∧ s.state_num < sn ∧ 0 ≤ s.next1 ∧ 0 ≤ s.next2) ∧
      k = (sortStates ((⟨0, "BR", ((e : Nat) : Int), ((e : Nat) : Int)⟩ : FSMState) ::
          (rest ++ [⟨sn, "BR", -1, -1⟩]))).map (·.state_type) ∧
      n1 = (sortStates ((⟨0, "BR", ((e : Nat) : Int), ((e : Nat) : Int)⟩ : FSMState) ::
          (rest ++ [⟨sn, "BR", -1, -1⟩]))).map (·.next1) ∧
      n2 = (sortStates ((⟨0, "BR", ((e : Nat) : Int), ((e : Nat) : Int)⟩ : FSMState) ::
          (rest ++ [⟨sn, "BR", -1, -1⟩]))).map (·.next2) := by
  obtain ⟨e, st, hexp, hinv, ht⟩ := compile_ok h
  obtain ⟨hsn, hbounds, a, b, rest, hsh, hrest⟩ := hinv
  refine ⟨e, st.state_num, rest, st, hsn, hexp, rfl, ?_, ?_, ?_, ?_⟩
  · intro s hs
    have hmem : s ∈ st.fsm := by rw [hsh]; exact List.mem_cons_of_mem _ hs
    exact ⟨hrest s hs, hbounds s hmem⟩
  all_goals {
    have hupd : update_state st.fsm 0 ((e : Nat) : Int) ((e : Nat) : Int) ++
        [⟨st.state_num, "BR", -1, -1⟩] =
        (⟨0, "BR", ((e : Nat) : Int), ((e : Nat) : Int)⟩ : FSMState) ::
          (rest ++ [⟨st.state_num, "BR", -1, -1⟩]) := by
      rw [hsh]; rfl
    rw [← hupd]
    first
    | exact congrArg Prod.fst ht
    | exact congrArg (fun q => q.2.1) ht
    | exact congrArg (fun q => q.2.2) ht
  }

/-- C7: for every pattern that compiles successfully, state 0 of the
output arrays is a Branch whose next1 and next2 are equal, both the id the
parsed expression returned as the pattern's entry state. -/
theorem C7_theorem {p : List Char} {k : List String} {n1 n2 : List Int}
    (h : compile p = .ok (k, n1, n2)) :
    ∃ e st, expression (p ++ ['\x00']) (compileFuel p)
        (⟨0, 1, [⟨0, "BR", 0, 0⟩]⟩ : CompSt) = .ok (e, st) ∧
      k.get? 0 = some "BR" ∧ n1.get? 0 = some ((e : Nat) : Int) ∧
      n2.get? 0 = some ((e : Nat) : Int) := by
  obtain ⟨e, sn, rest, st, hsn, hexp, hstsn, hrest, hk, hn1, hn2⟩ := compile_arrays h
  refine ⟨e, st, hexp, ?_⟩
  have hpos : ∀ s ∈ rest ++ [(⟨sn, "BR", -1, -1⟩ : FSMState)], 1 ≤ s.state_num := by
    intro s hs
    rcases List.mem_append.mp hs with hs1 | hs2
    · exact (hrest s hs1).1
    · rw [List.mem_singleton.mp hs2]; exact hsn
  obtain ⟨tail, hsorteq⟩ := sortStates_head
    (show (⟨0, "BR", ((e : Nat) : Int), ((e : Nat) : Int)⟩ : FSMState).state_num = 0
      from rfl) hpos
  rw [hk, hn1, hn2, hsorteq]
  exact ⟨rfl, rfl, rfl⟩

/-- C7 witness: the pattern "ab" compiles and its state 0 is a Branch
pointing twice at entry id 1. -/
theorem C7_witness :
    ∃ e st, expression ("ab".toList ++ ['\x00']) (compileFuel "ab".toList)
        (⟨0, 1, [⟨0, "BR", 0, 0⟩]⟩ : CompSt) = .ok (e, st) ∧
      (["BR", "a", "b", "BR"] : List String).get? 0 = some "BR" ∧
      ([1, 2, 3, -1] : List Int).get? 0 = some ((e : Nat) : Int) ∧
      ([1, 2, 3, -1] : List Int).get? 0 = some ((e : Nat) : Int) :=
  C7_theorem (show compile "ab".toList =
    .ok (["BR", "a", "b", "BR"], [1, 2, 3, -1], [1, 2, 3, -1]) from rfl)

/-- C8: for every pattern that compiles successfully, the accepting
pattern - kind Branch with both successors END - appears at the last index
of the output arrays and at no other index. -/
theorem C8_theorem {p : List Char} {k : List String} {n1 n2 : List Int}
    (h : compile p = .ok (k, n1, n2)) :
    1 ≤ k.length ∧
    (k.get? (k.length - 1) = some "BR" ∧ n1.get? (k.length - 1) = some (-1) ∧
      n2.get? (k.length - 1) = some (-1)) ∧
    ∀ i, k.get? i = some "BR" ∧ n1.get? i = some (-1) ∧ n2.get? i = some (-1) →
      i = k.length - 1 := by
  obtain ⟨e, sn, rest, st, hsn, hexp, hstsn, hrest, hk, hn1, hn2⟩ := compile_arrays h
  have hhdne : (⟨0, "BR", ((e : Nat) : Int), ((e : Nat) : Int)⟩ : FSMState) ≠
      ⟨sn, "BR", -1, -1⟩ := by
    intro hx
    have := congrArg FSMState.state_num hx
    simp only at this
    omega
  have hnotmem : (⟨sn, "BR", -1, -1⟩ : FSMState) ∉
      ((⟨0, "BR", ((e : Nat) : Int), ((e : Nat) : Int)⟩ : FSMState) :: rest) := by
    intro hx
    rcases List.mem_cons.mp hx with hx1 | hx2
    · exact hhdne hx1.symm
    · have := (hrest _ hx2).2.1
      simp only at this
      omega
  have hmax : ∀ s ∈ (⟨0, "BR", ((e : Nat) : Int), ((e : Nat) : Int)⟩ : FSMState) ::
      (rest ++ [⟨sn, "BR", -1, -1⟩]), s ≠ ⟨sn, "BR", -1, -1⟩ →
      s.state_num < (⟨sn, "BR", -1, -1⟩ : FSMState).state_num := by
    intro s hs hne
    rcases List.mem_cons.mp hs with hs1 | hs2
    · rw [hs1]; exact hsn
    · rcases List.mem_append.mp hs2 with hs3 | hs4
      · exact (hrest s hs3).2.1
      · exact absurd (List.mem_singleton.mp hs4) hne
  have hcount : ((⟨0, "BR", ((e : Nat) : Int), ((e : Nat) : Int)⟩ : FSMState) ::
      (rest ++ [⟨sn, "BR", -1, -1⟩])).count (⟨sn, "BR", -1, -1⟩ : FSMState) = 1 := by
    have h0 : ((⟨0, "BR", ((e : Nat) : Int), ((e : Nat) : Int)⟩ : FSMState) ::
        rest).count (⟨sn, "BR", -1, -1⟩ : FSMState) = 0 :=
      List.count_eq_zero.mpr hnotmem
    have : (⟨0, "BR", ((e : Nat) : Int), ((e : Nat) : Int)⟩ : FSMState) ::
        (rest ++ [⟨sn, "BR", -1, -1⟩]) =
        ((⟨0, "BR", ((e : Nat) : Int), ((e : Nat) : Int)⟩ : FSMState) :: rest) ++
          [⟨sn, "BR", -1, -1⟩] := by simp
    rw [this, List.count_append, h0]
    simp
  obtain ⟨front, hfeq, hflt⟩ := sortStates_last
    (show (⟨sn, "BR", -1, -1⟩ : FSMState) ∈ _ from List.mem_cons_of_mem _
      (List.mem_append_right _ (List.mem_singleton.mpr rfl))) hmax hcount
  have hfmem : ∀ s ∈ front, 0 ≤ s.next1 := by
    intro s hs
    have hsmem : s ∈ (⟨0, "BR", ((e : Nat) : Int), ((e : Nat) : Int)⟩ : FSMState) ::
        (rest ++ [⟨sn, "BR", -1, -1⟩]) := by
      apply (sortStates_perm _).mem_iff.mp
      rw [hfeq]
      exact List.mem_append_left _ hs
    rcases List.mem_cons.mp hsmem with hs1 | hs2
    · rw [hs1]; exact Int.natCast_nonneg _
    · rcases List.mem_append.mp hs2 with hs3 | hs4
      · exact (hrest s hs3).2.2.1
      · rw [List.mem_singleton.mp hs4] at hs
        have := hflt _ hs
        simp only at this
        omega
  rw [hk, hn1, hn2, hfeq]
  have hklen : ((front ++ [(⟨sn, "BR", -1, -1⟩ : FSMState)]).map
      (·.state_type)).length = front.length + 1 := by simp
  constructor
  · rw [hklen]; omega
  have hidx : ((front ++ [(⟨sn, "BR", -1, -1⟩ : FSMState)]).map (·.state_type)).length - 1 =
      front.length := by rw [hklen]; omega
  constructor
  · rw [hidx]
    refine ⟨?_, ?_, ?_⟩
    all_goals {
      rw [List.map_append]
      have hlen2 : front.length = (front.map (·.state_type)).length ∨
        front.length = (front.map (·.next1)).length ∨
        front.length = (front.map (·.next2)).length := by simp
      first
      | (rw [show front.length = (front.map (fun s => s.state_type)).length by simp]
         exact List.get?_concat_length _ _)
      | (rw [show front.length = (front.map (fun s => s.next1)).length by simp]
         exact List.get?_concat_length _ _)
      | (rw [show front.length = (front.map (fun s => s.next2)).length by simp]
         exact List.get?_concat_length _ _)
    }
  · intro i ⟨hki, h1i, h2i⟩
    rw [hidx]
    by_contra hne
    have hilt : i < front.length := by
      rcases Nat.lt_or_ge i front.length with hlt | hge
      · exact hlt
      · rcases Nat.eq_or_lt_of_le hge with heq | hgt
        · exact absurd heq.symm hne
        · have : ((front ++ [(⟨sn, "BR", -1, -1⟩ : FSMState)]).map
              (·.state_type)).get? i = none := by
            apply List.get?_eq_none.mpr
            rw [hklen]; omega
          rw [this] at hki; cases hki
    have h1i' : (front.map (·.next1)).get? i = some (-1) := by
      rw [← h1i, List.map_append, List.get?_append (by simpa using hilt)]
    rw [List.get?_map] at h1i'
    cases hfi : front.get? i with
    | none => rw [hfi] at h1i'; cases h1i'
    | some s =>
      rw [hfi] at h1i'
      have hsmem : s ∈ front := List.get?_mem hfi
      have := hfmem s hsmem
      simp only [Option.map_some'] at h1i'
      have : s.next1 = -1 := by exact Option.some.inj h1i'
      omega

/-- C8 witness: the pattern "a" compiles to three states whose last is the
single accepting Branch. -/
theorem C8_witness :
    (["BR", "a", "BR"] : List String).get? 2 = some "BR" ∧
    ([1, 2, -1] : List Int).get? 2 = some (-1) ∧
    ([1, 2, -1] : List Int).get? 2 = some (-1) := by
  have h := C8_theorem (show compile "a".toList =
    .ok (["BR", "a", "BR"], [1, 2, -1], [1, 2, -1]) from rfl)
  exact h.2.1

/-! ### Quantifier-free patterns compile to a simple chain (C5) -/

/-- A chain segment: consuming (non-Branch) states numbered a .. b-1 in
order, each forwarding both successors to the next number. -/
def ChainL (L : List FSMState) (a b : Nat) : Prop :=
  L.map (·.state_num) = List.range' a (b - a) ∧
  ∀ s ∈ L, s.state_type ≠ "BR" ∧
    s.next1 = ((s.state_num + 1 : Nat) : Int) ∧ s.next2 = ((s.state_num + 1 : Nat) : Int)

/-- Dense machine: state numbers are exactly 0 .. state_num - 1 in order. -/
def DenseNums (st : CompSt) : Prop :=
  st.fsm.map (·.state_num) = List.range st.state_num

theorem chainL_nil (a : Nat) : ChainL [] a a := ⟨by simp, by simp⟩

theorem chainL_single (num : Nat) (k : String) (hk : k ≠ "BR") :
    ChainL [⟨num, k, ((num + 1 : Nat) : Int), ((num + 1 : Nat) : Int)⟩] num (num + 1) := by
  refine ⟨by simp, ?_⟩
  intro s hs
  rw [List.mem_singleton.mp hs]
  exact ⟨hk, rfl, rfl⟩

theorem chainL_append {L1 L2 : List FSMState} {a b c : Nat}
    (h1 : ChainL L1 a b) (h2 : ChainL L2 b c) (hab : a ≤ b) (hbc : b ≤ c) :
    ChainL (L1 ++ L2) a c := by
  refine ⟨?_, ?_⟩
  · rw [List.map_append, h1.1, h2.1]
    have happ := List.range'_append a (b - a) (c - b) 1
    rw [show a + 1 * (b - a) = b by omega] at happ
    rw [happ, show c - b + (b - a) = c - a by omega]
  · intro s hs
    rcases List.mem_append.mp hs with h | h
    · exact h1.2 s h
    · exact h2.2 s h

theorem dense_extend {st st' : CompSt} {L : List FSMState}
    (hd : DenseNums st) (hsh : st'.fsm = st.fsm ++ L)
    (hc : ChainL L st.state_num st'.state_num)
    (hle : st.state_num ≤ st'.state_num) : DenseNums st' := by
  unfold DenseNums at hd ⊢
  rw [hsh, List.map_append, hd, hc.1, List.range_eq_range', List.range_eq_range']
  have happ := List.range'_append 0 st.state_num (st'.state_num - st.state_num) 1
  rw [show 0 + 1 * st.state_num = st.state_num by omega] at happ
  rw [happ, show st'.state_num - st.state_num + st.state_num = st'.state_num by omega]

/-- Under a dense numbering, set_state at the next number is a plain
append: the state is absent and the filler range is empty. -/
theorem set_state_of_dense {fsm : List FSMState} {sn : Nat} (k : String) (a b : Int)
    (hd : fsm.map (·.state_num) = List.range sn) :
    set_state fsm sn k a b = fsm ++ [⟨sn, k, a, b⟩] := by
  have hlen : fsm.length = sn := by
    have := congrArg List.length hd
    simpa using this
  have hnone : get_state fsm sn = none := by
    rw [get_state, List.find?_eq_none]
    intro s hs hbeq
    have hmem : s.state_num ∈ fsm.map (·.state_num) := List.mem_map_of_mem _ hs
    rw [hd, List.mem_range] at hmem
    rw [beq_iff_eq] at hbeq
    omega
  rw [set_state, hnone]
  simp only [Option.isSome_none, Bool.false_eq_true, if_false]
  rw [List.length_append, hlen]
  simp

theorem singleton_ne_BR (c : Char) : String.singleton c ≠ "BR" := by
  intro h
  have hl := congrArg String.length h
  rw [show (String.singleton c).length = 1 from rfl] at hl
  exact absurd hl (by decide)

/-- On quantifier- and alternation-free input, every parsing routine
appends a pure chain of consuming states and returns the first newly
allocated number as the entry. -/
theorem parse_chain (chars : List Char)
    (hq : ∀ c ∈ chars, c ≠ '?' ∧ c ≠ '+' ∧ c ≠ '*' ∧ c ≠ '|') :
    ∀ fuel : Nat,
      (∀ st r st', expression chars fuel st = .ok (r, st') → DenseNums st →
        r = st.state_num ∧ st.state_num < st'.state_num ∧ DenseNums st' ∧
        ∃ L, st'.fsm = st.fsm ++ L ∧ ChainL L st.state_num st'.state_num) ∧
      (∀ st r st', term chars fuel st = .ok (r, st') → DenseNums st →
        r = st.state_num ∧ st.state_num < st'.state_num ∧ DenseNums st' ∧
        ∃ L, st'.fsm = st.fsm ++ L ∧ ChainL L st.state_num st'.state_num) ∧
      (∀ st st', termLoop chars fuel st = .ok st' → DenseNums st →
        st.state_num ≤ st'.state_num ∧ DenseNums st' ∧
        ∃ L, st'.fsm = st.fsm ++ L ∧ ChainL L st.state_num st'.state_num) ∧
      (∀ st r st', factor chars fuel st = .ok (r, st') → DenseNums st →
        r = st.state_num ∧ st.state_num < st'.state_num ∧ DenseNums st' ∧
        ∃ L, st'.fsm = st.fsm ++ L ∧ ChainL L st.state_num st'.state_num) ∧
      (∀ st r st', primary chars fuel st = .ok (r, st') → DenseNums st →
        r = st.state_num ∧ st.state_num < st'.state_num ∧ DenseNums st' ∧
        ∃ L, st'.fsm = st.fsm ++ L ∧ ChainL L st.state_num st'.state_num) := by
  intro fuel
  induction fuel with
  | zero =>
    refine ⟨?_, ?_, ?_, ?_, ?_⟩
    · intro st r st' h; rw [expression] at h; cases h
    · intro st r st' h; rw [term] at h; cases h
    · intro st st' h; rw [termLoop] at h; cases h
    · intro st r st' h; rw [factor] at h; cases h
    · intro st r st' h; rw [primary] at h; cases h
  | succ fuel ih =>
    obtain ⟨ihe, iht, ihl, ihf, ihp⟩ := ih
    refine ⟨?_, ?_, ?_, ?_, ?_⟩
    · -- expression
      intro st r st' h hd
      rw [expression] at h
      cases hterm : term chars fuel st with
      | error e => rw [hterm] at h; cases h
      | ok p =>
        obtain ⟨t1, st1⟩ := p
        rw [hterm] at h
        dsimp only at h
        obtain ⟨ht1, hlt1, hd1, L1, hsh1, hc1⟩ := iht st t1 st1 hterm hd
        cases hc : chars.get? st1.pos with
        | none => rw [hc] at h; cases h; exact ⟨ht1, hlt1, hd1, L1, hsh1, hc1⟩
        | some c =>
          rw [hc] at h
          dsimp only at h
          have hcm := hq c (List.get?_mem hc)
          rw [if_neg (by simp only [beq_iff_eq]; exact hcm.2.2.2)] at h
          cases h
          exact ⟨ht1, hlt1, hd1, L1, hsh1, hc1⟩
    · -- term
      intro st r st' h hd
      rw [term] at h
      cases hfac : factor chars fuel st with
      | error e => rw [hfac] at h; cases h
      | ok p =>
        obtain ⟨r1, st1⟩ := p
        rw [hfac] at h
        dsimp only at h
        obtain ⟨hr1, hlt1, hd1, L1, hsh1, hc1⟩ := ihf st r1 st1 hfac hd
        cases hloop : termLoop chars fuel st1 with
        | error e => rw [hloop] at h; cases h
        | ok st2 =>
          rw [hloop] at h
          cases h
          obtain ⟨hle2, hd2, L2, hsh2, hc2⟩ := ihl st1 _ hloop hd1
          refine ⟨hr1, by omega, hd2, L1 ++ L2, ?_, ?_⟩
          · rw [hsh2, hsh1, List.append_assoc]
          · exact chainL_append hc1 hc2 (by omega) (by omega)
    · -- termLoop
      intro st st' h hd
      rw [termLoop] at h
      cases hc : chars.get? st.pos with
      | none => rw [hc] at h; cases h; exact ⟨le_refl _, hd, [], by simp, chainL_nil _⟩
      | some c =>
        rw [hc] at h
        dsimp only at h
        by_cases hcc : is_vocab c || c == '(' || c == '\\'
        · rw [if_pos hcc] at h
          cases hfac : factor chars fuel st with
          | error e => rw [hfac] at h; cases h
          | ok p =>
            obtain ⟨r1, st1⟩ := p
            rw [hfac] at h
            dsimp only at h
            obtain ⟨hr1, hlt1, hd1, L1, hsh1, hc1⟩ := ihf st r1 st1 hfac hd
            obtain ⟨hle2, hd2, L2, hsh2, hc2⟩ := ihl st1 st' h hd1
            refine ⟨by omega, hd2, L1 ++ L2, ?_, ?_⟩
            · rw [hsh2, hsh1, List.append_assoc]
            · exact chainL_append hc1 hc2 (by omega) (by omega)
        · rw [if_neg hcc] at h; cases h
          exact ⟨le_refl _, hd, [], by simp, chainL_nil _⟩
    · -- factor
      intro st r st' h hd
      rw [factor] at h
      cases hp : primary chars fuel st with
      | error e => rw [hp] at h; cases h
      | ok p =>
        obtain ⟨p1, st1⟩ := p
        rw [hp] at h
        dsimp only at h
        obtain ⟨hr1, hlt1, hd1, L1, hsh1, hc1⟩ := ihp st p1 st1 hp hd
        cases hc : chars.get? st1.pos with
        | none => rw [hc] at h; cases h; exact ⟨hr1, hlt1, hd1, L1, hsh1, hc1⟩
        | some c =>
          rw [hc] at h
          dsimp only at h
          have hcm := hq c (List.get?_mem hc)
          rw [if_neg (by simp only [beq_iff_eq]; exact hcm.1)] at h
          rw [if_neg (by simp only [beq_iff_eq]; exact hcm.2.1)] at h
          rw [if_neg (by simp only [beq_iff_eq]; exact hcm.2.2.1)] at h
          cases h
          exact ⟨hr1, hlt1, hd1, L1, hsh1, hc1⟩
    · -- primary
      intro st r st' h hd
      rw [primary] at h
      cases hc : chars.get? st.pos with
      | none => rw [hc] at h; cases h
      | some c =>
        rw [hc] at h
        dsimp only at h
        by_cases h1 : c == '\\'
        · rw [if_pos h1] at h
          cases hc2 : chars.get? (st.pos + 1) with
          | none => rw [hc2] at h; cases h
          | some e2 =>
            rw [hc2] at h
            dsimp only at h
            rw [set_state_of_dense _ _ _ hd] at h
            cases h
            exact ⟨rfl, Nat.lt_succ_self _,
              dense_extend hd rfl (chainL_single _ _ (singleton_ne_BR e2)) (Nat.le_succ _),
              _, rfl, chainL_single _ _ (singleton_ne_BR e2)⟩
        · rw [if_neg h1] at h
          by_cases h2 : is_vocab c
          · rw [if_pos h2] at h
            rw [set_state_of_dense _ _ _ hd] at h
            cases h
            have hk : (if c == '.' then "WC" else String.singleton c) ≠ "BR" := by
              by_cases hdot : c == '.'
              · rw [if_pos hdot]; decide
              · rw [if_neg hdot]; exact singleton_ne_BR c
            exact ⟨rfl, Nat.lt_succ_self _,
              dense_extend hd rfl (chainL_single _ _ hk) (Nat.le_succ _),
              _, rfl, chainL_single _ _ hk⟩
          · rw [if_neg h2] at h
            by_cases h3 : c == '('
            · rw [if_pos h3] at h
              cases hrec : expression chars fuel
                  (⟨st.pos + 1, st.state_num, st.fsm⟩ : CompSt) with
              | error e => rw [hrec] at h; cases h
              | ok q =>
                obtain ⟨r1, st1⟩ := q
                rw [hrec] at h
                dsimp only at h
                obtain ⟨hr1, hlt1, hd1, L1, hsh1, hc1⟩ := ihe _ r1 st1 hrec hd
                cases hc2 : chars.get? st1.pos with
                | none => rw [hc2] at h; cases h
                | some c2 =>
                  rw [hc2] at h
                  dsimp only at h
                  by_cases h4 : c2 == ')'
                  · rw [if_pos h4] at h
                    cases h
                    exact ⟨hr1, hlt1, hd1, L1, hsh1, hc1⟩
                  · rw [if_neg h4] at h; cases h
            · rw [if_neg h3] at h; cases h

/-- C5: a pattern with no quantifier or alternation characters that
compiles successfully yields a simple chain: for some n ≥ 1 the arrays
have n + 2 entries, indices 1 .. n are consuming states whose both
successors point at the next index, and index n + 1 is the accepting
state (index 0 being the fixed entry Branch). -/
theorem C5_theorem {p : List Char} {k : List String} {n1 n2 : List Int}
    (hq : ∀ c ∈ p, c ≠ '?' ∧ c ≠ '+' ∧ c ≠ '*' ∧ c ≠ '|')
    (h : compile p = .ok (k, n1, n2)) :
    ∃ n : Nat, 1 ≤ n ∧ k.length = n + 2 ∧
      (∀ i, 1 ≤ i → i ≤ n →
        (∃ t, k.get? i = some t ∧ t ≠ "BR") ∧
        n1.get? i = some ((i + 1 : Nat) : Int) ∧
        n2.get? i = some ((i + 1 : Nat) : Int)) ∧
      k.get? (n + 1) = some "BR" ∧ n1.get? (n + 1) = some (-1) ∧
      n2.get? (n + 1) = some (-1) := by
  obtain ⟨e, st, hexp, hinv, ht⟩ := compile_ok h
  have hq' : ∀ c ∈ p ++ ['\x00'], c ≠ '?' ∧ c ≠ '+' ∧ c ≠ '*' ∧ c ≠ '|' := by
    intro c hc
    rcases List.mem_append.mp hc with h1 | h2
    · exact hq c h1
    · rw [List.mem_singleton.mp h2]
      exact ⟨by decide, by decide, by decide, by decide⟩
  have hd0 : DenseNums (⟨0, 1, [⟨0, "BR", 0, 0⟩]⟩ : CompSt) := by
    unfold DenseNums
    rfl
  obtain ⟨he1, hlt, hdst, L, hshL, hcL⟩ :=
    (parse_chain (p ++ ['\x00']) hq' (compileFuel p)).1 _ e st hexp hd0
  have hsn1 : 1 < st.state_num := hlt
  have hLlen : L.length = st.state_num - 1 := by
    have := congrArg List.length hcL.1
    simpa using this
  have hupd : update_state st.fsm 0 ((e : Nat) : Int) ((e : Nat) : Int) ++
      [⟨st.state_num, "BR", -1, -1⟩] =
      (⟨0, "BR", ((e : Nat) : Int), ((e : Nat) : Int)⟩ : FSMState) ::
        (L ++ [⟨st.state_num, "BR", -1, -1⟩]) := by
    rw [hshL]
    rfl
  rw [hupd] at ht
  have hnums : (((⟨0, "BR", ((e : Nat) : Int), ((e : Nat) : Int)⟩ : FSMState) ::
      (L ++ [⟨st.state_num, "BR", -1, -1⟩])).map (·.state_num)) =
      List.range (st.state_num + 1) := by
    simp only [List.map_cons, List.map_append, hcL.1, List.map_nil]
    have happ := List.range'_append 1 (st.state_num - 1) 1 1
    rw [show 1 + 1 * (st.state_num - 1) = st.state_num by omega, List.range'_one] at happ
    rw [List.range_eq_range', List.range'_succ, Nat.zero_add]
    rw [happ, show 1 + (st.state_num - 1) = st.state_num by omega]
  have hsorted : List.Sorted numLE ((⟨0, "BR", ((e : Nat) : Int), ((e : Nat) : Int)⟩ :
      FSMState) :: (L ++ [⟨st.state_num, "BR", -1, -1⟩])) := by
    have hpw : List.Pairwise (fun a b : Nat => a ≤ b)
        ((((⟨0, "BR", ((e : Nat) : Int), ((e : Nat) : Int)⟩ : FSMState) ::
          (L ++ [⟨st.state_num, "BR", -1, -1⟩])).map (·.state_num))) := by
      rw [hnums]
      exact (List.pairwise_lt_range _).imp (fun h => le_of_lt h)
    refine List.Pairwise.imp ?_ (List.pairwise_map.mp hpw)
    intro a b hab
    exact hab
  have hsorteq : sortStates ((⟨0, "BR", ((e : Nat) : Int), ((e : Nat) : Int)⟩ :
      FSMState) :: (L ++ [⟨st.state_num, "BR", -1, -1⟩])) =
      (⟨0, "BR", ((e : Nat) : Int), ((e : Nat) : Int)⟩ : FSMState) ::
        (L ++ [⟨st.state_num, "BR", -1, -1⟩]) :=
    List.Sorted.insertionSort_eq hsorted
  have ht' : (k, n1, n2) =
      ((sortStates ((⟨0, "BR", ((e : Nat) : Int), ((e : Nat) : Int)⟩ : FSMState) ::
          (L ++ [⟨st.state_num, "BR", -1, -1⟩]))).map (·.state_type),
        (sortStates ((⟨0, "BR", ((e : Nat) : Int), ((e : Nat) : Int)⟩ : FSMState) ::
          (L ++ [⟨st.state_num, "BR", -1, -1⟩]))).map (·.next1),
        (sortStates ((⟨0, "BR", ((e : Nat) : Int), ((e : Nat) : Int)⟩ : FSMState) ::
          (L ++ [⟨st.state_num, "BR", -1, -1⟩]))).map (·.next2)) := ht
  rw [hsorteq] at ht'
  obtain ⟨hk, hn1, hn2⟩ : k = _ ∧ n1 = _ ∧ n2 = _ := by
    refine ⟨congrArg (fun q : List String × List Int × List Int => q.1) ht',
      congrArg (fun q : List String × List Int × List Int => q.2.1) ht',
      congrArg (fun q : List String × List Int × List Int => q.2.2) ht'⟩
  have harr : ∀ {α : Type} (f : FSMState → α) (j : Nat), j < L.length →
      ((((⟨0, "BR", ((e : Nat) : Int), ((e : Nat) : Int)⟩ : FSMState) ::
        (L ++ [⟨st.state_num, "BR", -1, -1⟩])).map f).get? (j + 1)) =
        (L.get? j).map f := by
    intro α f j hj
    rw [List.map_cons, List.get?_cons_succ, List.map_append,
      List.get?_append (by simpa using hj), List.get?_map]
  have hlast : ∀ {α : Type} (f : FSMState → α),
      ((((⟨0, "BR", ((e : Nat) : Int), ((e : Nat) : Int)⟩ : FSMState) ::
        (L ++ [⟨st.state_num, "BR", -1, -1⟩])).map f).get? (L.length + 1)) =
        some (f ⟨st.state_num, "BR", -1, -1⟩) := by
    intro α f
    simp only [List.map_cons, List.map_append, List.map_nil, List.get?_cons_succ]
    rw [show L.length = (L.map f).length by simp, List.get?_concat_length]
  refine ⟨st.state_num - 1, by omega, ?_, ?_, ?_, ?_, ?_⟩
  · rw [hk]
    have hlen2 : (((⟨0, "BR", ((e : Nat) : Int), ((e : Nat) : Int)⟩ : FSMState) ::
        (L ++ [⟨st.state_num, "BR", -1, -1⟩])).map (·.state_type)).length = L.length + 2 := by
      simp
    rw [hlen2, hLlen]
  · intro i h1i hin
    obtain ⟨j, rfl⟩ : ∃ j, i = j + 1 := ⟨i - 1, by omega⟩
    have hj : j < L.length := by omega
    have hnum : ∃ s, L.get? j = some s ∧ s.state_num = j + 1 := by
      cases hLj : L.get? j with
      | none => rw [List.get?_eq_none] at hLj; omega
      | some s =>
        refine ⟨s, rfl, ?_⟩
        have hmapj : (L.map (·.state_num)).get? j = some s.state_num := by
          rw [List.get?_map, hLj]
          rfl
        rw [hcL.1, List.get?_range' 1 1 (by omega : j < st.state_num - 1)] at hmapj
        have := Option.some.inj hmapj
        omega
    obtain ⟨s, hLj, hsnum⟩ := hnum
    have hsmem : s ∈ L := List.get?_mem hLj
    obtain ⟨hkind, hn1s, hn2s⟩ := hcL.2 s hsmem
    refine ⟨⟨s.state_type, ?_, hkind⟩, ?_, ?_⟩
    · rw [hk, harr _ j hj, hLj]
      rfl
    · rw [hn1, harr _ j hj, hLj]
      simp only [Option.map_some']
      rw [hn1s, hsnum]
    · rw [hn2, harr _ j hj, hLj]
      simp only [Option.map_some']
      rw [hn2s, hsnum]
  · rw [hk, show st.state_num - 1 + 1 = L.length + 1 by omega, hlast]
  · rw [hn1, show st.state_num - 1 + 1 = L.length + 1 by omega, hlast]
  · rw [hn2, show st.state_num - 1 + 1 = L.length + 1 by omega, hlast]

/-- C5 witness: the quantifier-free pattern "ab" compiles to the chain
BR,a,b,BR where state 1 forwards to 2 and state 3 accepts. -/
theorem C5_witness :
    ([1, 2, 3, -1] : List Int).get? 1 = some 2 ∧
    (["BR", "a", "b", "BR"] : List String).get? 3 = some "BR" := by
  have h := C5_theorem (by decide) (show compile "ab".toList =
    .ok (["BR", "a", "b", "BR"], [1, 2, 3, -1], [1, 2, 3, -1]) from rfl)
  obtain ⟨n, hpos, hlen, hmid, hk, hn1a, hn2a⟩ := h
  have hn : n = 2 := by
    have h4 : (4 : Nat) = n + 2 := hlen
    omega
  subst hn
  refine ⟨?_, hk⟩
  have hm := (hmid 1 (by omega) (by omega)).2.1
  simpa using hm

/-! ### Termination of the per-offset simulation on compiled machines (C9) -/

/-- An expandable branch item: in range, Branch kind, and not the
accepting state.  Only popping such an item can enlarge the deque front. -/
def isRealBRb (r : REsearcher) (x : Int) : Bool :=
  decide (0 ≤ x) && decide (x < (r.state_type.length : Int)) &&
    (r.state_type.getD x.toNat "" == "BR") && !(is_end_br_state r x == some true)

/-- Weight of a deque item: expandable branches are heavy enough to pay
for the closure items their expansion can push. -/
def wItem (r : REsearcher) (x : Int) : Nat :=
  if isRealBRb r x then 2 ^ (r.state_type.length + 2) + 1 else 2

/-- Weight of the current generation: the items before the SCAN marker. -/
def phiDeq (r : REsearcher) (l : List Int) : Nat :=
  ((l.takeWhile (fun z => z != SCAN)).map (wItem r)).sum

/-- Positions yet to advance over, with the pending SCAN marker. -/
def m12 (line : List Char) (s : MState) : Nat :=
  2 * (line.length - s.pos) + s.deq.count SCAN

/-- Reachability invariant of the simulation loop: items are -1 or state
ids, at most one SCAN marker circulates, and once the marker is gone the
position is at or past the end of the line. -/
def InvM (line : List Char) (s : MState) : Prop :=
  (∀ x ∈ s.deq, -1 ≤ x) ∧ s.deq.count SCAN ≤ 1 ∧
    (s.deq.count SCAN = 0 → line.length ≤ s.pos)

theorem takeWhile_append_of_all {p : Int → Bool} {a b : List Int}
    (h : ∀ x ∈ a, p x = true) :
    (a ++ b).takeWhile p = a ++ b.takeWhile p := by
  induction a with
  | nil => simp
  | cons x rest ih =>
    rw [List.cons_append, List.takeWhile_cons_of_pos (h x (List.mem_cons_self _ _)),
      List.cons_append, ih (fun y hy => h y (List.mem_cons_of_mem _ hy))]

theorem takeWhile_append_of_stop {p : Int → Bool} {a b : List Int} {z : Int}
    (hz : z ∈ a) (hpz : p z = false) :
    (a ++ b).takeWhile p = a.takeWhile p := by
  induction a with
  | nil => cases hz
  | cons x rest ih =>
    by_cases hx : p x
    · rw [List.cons_append, List.takeWhile_cons_of_pos hx, List.takeWhile_cons_of_pos hx]
      rcases List.mem_cons.mp hz with h1 | h2
      · rw [← h1] at hx; rw [hpz] at hx; cases hx
      · rw [ih h2]
    · rw [List.cons_append, List.takeWhile_cons_of_neg (by simpa using hx),
        List.takeWhile_cons_of_neg (by simpa using hx)]

theorem sum_wItem_of_flat {r : REsearcher} {l : List Int}
    (h : ∀ y ∈ l, isRealBRb r y = false) :
    (l.map (wItem r)).sum = 2 * l.length := by
  induction l with
  | nil => simp
  | cons x rest ih =>
    rw [List.map_cons, List.sum_cons, List.length_cons,
      ih (fun y hy => h y (List.mem_cons_of_mem _ hy))]
    rw [wItem, h x (List.mem_cons_self _ _)]
    simp only [Bool.false_eq_true, if_false]
    omega

/-- With next arrays at least as long as state_type (as in any compiled
machine), is_end_br_state never raises an IndexError. -/
theorem is_end_br_some (r : REsearcher)
    (h1 : r.next1.length = r.state_type.length)
    (h2 : r.next2.length = r.state_type.length) (x : Int) :
    ∃ b, is_end_br_state r x = some b := by
  rw [is_end_br_state]
  by_cases hx : x < 0 || (r.state_type.length : Int) ≤ x
  · rw [if_pos hx]; exact ⟨false, rfl⟩
  · rw [if_neg hx]
    have hx0 : 0 ≤ x ∧ x < (r.state_type.length : Int) := by
      simp only [Bool.or_eq_true, decide_eq_true_eq] at hx
      push_neg at hx
      omega
    by_cases ht : r.state_type.getD x.toNat "" != "BR"
    · rw [if_pos ht]; exact ⟨false, rfl⟩
    · rw [if_neg ht]
      have hlt1 : x.toNat < r.next1.length := by rw [h1]; omega
      cases hn1 : r.next1.get? x.toNat with
      | none => rw [List.get?_eq_none] at hn1; omega
      | some a =>
        dsimp only
        by_cases ha : a != -1
        · rw [if_pos ha]; exact ⟨false, rfl⟩
        · rw [if_neg ha]
          have hlt2 : x.toNat < r.next2.length := by rw [h2]; omega
          cases hn2 : r.next2.get? x.toNat with
          | none => rw [List.get?_eq_none] at hn2; omega
          | some b2 =>
            exact ⟨(b2 == -1), rfl⟩

/-- Distinct in-range ids recorded by a visited list. -/
def visCard (r : REsearcher) (visited : List Int) : Nat :=
  ((visited.filter (fun z => decide (0 ≤ z) &&
    decide (z < (r.state_type.length : Int)))).map Int.toNat).toFinset.card

theorem visCard_le (r : REsearcher) (visited : List Int) :
    visCard r visited ≤ r.state_type.length := by
  have hsub : ((visited.filter (fun z => decide (0 ≤ z) &&
      decide (z < (r.state_type.length : Int)))).map Int.toNat).toFinset ⊆
      Finset.range r.state_type.length := by
    intro y hy
    rw [List.mem_toFinset] at hy
    obtain ⟨z, hz, hzy⟩ := List.mem_map.mp hy
    have hz2 := List.of_mem_filter hz
    simp only [Bool.and_eq_true, decide_eq_true_eq] at hz2
    rw [Finset.mem_range]
    omega
  calc visCard r visited ≤ (Finset.range r.state_type.length).card :=
        Finset.card_le_card hsub
    _ = r.state_type.length := Finset.card_range _

theorem visCard_cons (r : REsearcher) {x : Int} {visited : List Int}
    (h0 : 0 ≤ x) (hlt : x < (r.state_type.length : Int)) (hnm : x ∉ visited) :
    visCard r (x :: visited) = visCard r visited + 1 := by
  unfold visCard
  rw [List.filter_cons_of_pos (by simp [h0, hlt]), List.map_cons, List.toFinset_cons,
    Finset.card_insert_of_not_mem]
  intro hmem
  rw [List.mem_toFinset] at hmem
  obtain ⟨z, hz, hzx⟩ := List.mem_map.mp hmem
  have hz2 := List.of_mem_filter hz
  simp only [Bool.and_eq_true, decide_eq_true_eq] at hz2
  have hzeq : z = x := by omega
  rw [hzeq] at hz
  exact hnm (List.mem_of_mem_filter hz)

theorem visCard_mono (r : REsearcher) {a b : List Int}
    (h : ∀ z ∈ a, z ∈ b) : visCard r a ≤ visCard r b := by
  apply Finset.card_le_card
  intro y hy
  rw [List.mem_toFinset] at hy ⊢
  obtain ⟨z, hz, hzy⟩ := List.mem_map.mp hy
  refine List.mem_map.mpr ⟨z, ?_, hzy⟩
  rw [List.mem_filter] at hz ⊢
  exact ⟨h z hz.1, hz.2⟩

/-- Full behaviour of the recursive expansion: under compiled-machine array
lengths it never raises, it only prepends non-negative states that are not
themselves expandable branches, at most 2 ^ (free room in the visited set)
many of them, and the visited set only grows. -/
theorem add_state_recursive_spec (r : REsearcher)
    (h1 : r.next1.length = r.state_type.length)
    (h2 : r.next2.length = r.state_type.length) :
    ∀ (fuel : Nat) (deq : List Int) (x : Int) (visited : List Int),
      ∃ new v2,
        add_state_recursive r fuel deq x visited = some (new ++ deq, v2) ∧
        (∀ y ∈ new, 0 ≤ y ∧ isRealBRb r y = false) ∧
        new.length ≤ 2 ^ (r.state_type.length - visCard r visited) ∧
        (∀ z ∈ visited, z ∈ v2) := by
  intro fuel
  induction fuel with
  | zero =>
    intro deq x visited
    exact ⟨[], visited, rfl, by simp, Nat.zero_le _, fun z hz => hz⟩
  | succ fuel ih =>
    intro deq x visited
    rw [add_state_recursive]
    by_cases hneg : x < 0 || visited.contains x
    · rw [if_pos hneg]
      exact ⟨[], visited, rfl, by simp, Nat.zero_le _, fun z hz => hz⟩
    · rw [if_neg hneg]
      have hx0 : 0 ≤ x ∧ x ∉ visited := by
        have hcopy := hneg
        simp only [Bool.or_eq_true, decide_eq_true_eq] at hcopy
        push_neg at hcopy
        refine ⟨hcopy.1, fun hm => hcopy.2 (by simpa using hm)⟩
      obtain ⟨b, hendbr⟩ := is_end_br_some r h1 h2 x
      cases b with
      | true =>
        rw [hendbr]
        dsimp only
        refine ⟨[x], x :: visited, rfl, ?_, Nat.one_le_two_pow,
          fun z hz => List.mem_cons_of_mem _ hz⟩
        intro y hy
        rw [List.mem_singleton] at hy
        subst hy
        exact ⟨hx0.1, by simp [isRealBRb, hendbr]⟩
      | false =>
        rw [hendbr]
        dsimp only
        by_cases hbr : x < (r.state_type.length : Int) &&
            r.state_type.getD x.toNat "" == "BR"
        · rw [if_pos hbr]
          have hbr' : x < (r.state_type.length : Int) ∧
              r.state_type.getD x.toNat "" = "BR" := by
            simp only [Bool.and_eq_true, decide_eq_true_eq, beq_iff_eq] at hbr
            exact hbr
          have hpg1 : ∃ v, pyGet r.next1 x = some v := by
            rw [pyGet, if_pos hx0.1]
            cases hg : r.next1.get? x.toNat with
            | none =>
              rw [List.get?_eq_none] at hg
              rw [h1] at hg
              omega
            | some v => exact ⟨v, rfl⟩
          obtain ⟨n1v, hpg1⟩ := hpg1
          rw [hpg1]
          dsimp only
          obtain ⟨new1, v1, hrec1, hflat1, hlen1, hsup1⟩ := ih deq n1v (x :: visited)
          rw [hrec1]
          dsimp only
          have hpg2 : ∃ v, pyGet r.next2 x = some v := by
            rw [pyGet, if_pos hx0.1]
            cases hg : r.next2.get? x.toNat with
            | none =>
              rw [List.get?_eq_none] at hg
              rw [h2] at hg
              omega
            | some v => exact ⟨v, rfl⟩
          obtain ⟨n2v, hpg2⟩ := hpg2
          rw [hpg2]
          dsimp only
          obtain ⟨new2, v2x, hrec2, hflat2, hlen2, hsup2⟩ := ih (new1 ++ deq) n2v v1
          rw [hrec2]
          refine ⟨new2 ++ new1, v2x, by rw [List.append_assoc], ?_, ?_, ?_⟩
          · intro y hy
            rcases List.mem_append.mp hy with h | h
            · exact hflat2 y h
            · exact hflat1 y h
          · rw [List.length_append]
            have hvc : visCard r (x :: visited) = visCard r visited + 1 :=
              visCard_cons r hx0.1 hbr'.1 hx0.2
            have hvle : visCard r (x :: visited) ≤ r.state_type.length :=
              visCard_le r _
            have hm1 : visCard r (x :: visited) ≤ visCard r v1 :=
              visCard_mono r hsup1
            have hb1 : new1.length ≤
                2 ^ (r.state_type.length - visCard r (x :: visited)) := hlen1
            have hb2 : new2.length ≤
                2 ^ (r.state_type.length - visCard r (x :: visited)) :=
              le_trans hlen2 (Nat.pow_le_pow_right (by omega) (by omega))
            have hsplit : r.state_type.length - visCard r visited =
                (r.state_type.length - visCard r (x :: visited)) + 1 := by omega
            rw [hsplit, pow_succ]
            omega
          · intro z hz
            exact hsup2 z (hsup1 z (List.mem_cons_of_mem _ hz))
        · rw [if_neg hbr]
          refine ⟨[x], x :: visited, rfl, ?_, Nat.one_le_two_pow,
            fun z hz => List.mem_cons_of_mem _ hz⟩
          intro y hy
          rw [List.mem_singleton] at hy
          rw [hy]
          refine ⟨hx0.1, ?_⟩
          have hbr2 : ¬(x < (r.state_type.length : Int) ∧
              r.state_type.getD x.toNat "" = "BR") := by
            intro hc
            apply hbr
            simp only [Bool.and_eq_true, decide_eq_true_eq, beq_iff_eq]
            exact hc
          rcases not_and_or.mp hbr2 with h | h
          · simp [isRealBRb, h]
          · rw [isRealBRb]
            have hb0 : (r.state_type.getD x.toNat "" == "BR") = false :=
              beq_eq_false_iff_ne.mpr h
            rw [hb0]
            simp

/-- add_state never raises on a compiled machine: it prepends at most
2 ^ |state_type| non-negative, non-expandable states. -/
theorem add_state_spec (r : REsearcher)
    (h1 : r.next1.length = r.state_type.length)
    (h2 : r.next2.length = r.state_type.length)
    (deq : List Int) (x : Int) :
    ∃ new, add_state r deq x = some (new ++ deq) ∧
      (∀ y ∈ new, 0 ≤ y ∧ isRealBRb r y = false) ∧
      new.length ≤ 2 ^ r.state_type.length := by
  rw [add_state]
  by_cases hx : x < 0
  · rw [if_pos hx]
    exact ⟨[], rfl, by simp, Nat.zero_le _⟩
  · rw [if_neg hx]
    obtain ⟨new, v2, hrec, hflat, hlen, hsup⟩ :=
      add_state_recursive_spec r h1 h2 (r.state_type.length + 1) deq x []
    rw [hrec]
    refine ⟨new, rfl, hflat, ?_⟩
    exact le_trans hlen (Nat.pow_le_pow_right (by omega) (Nat.sub_le _ _))

theorem count_scan_cons_self (l : List Int) :
    (SCAN :: l).count SCAN = l.count SCAN + 1 := by
  simp [List.count_cons]

theorem count_scan_cons_ne {x : Int} {l : List Int} (hx : (x == SCAN) = false) :
    (x :: l).count SCAN = l.count SCAN := by
  have hne : SCAN ≠ x := by
    intro h
    rw [← h] at hx
    simp at hx
  simp [List.count_cons, hne]

theorem count_scan_append_nonneg {new l : List Int} (h : ∀ y ∈ new, 0 ≤ y) :
    (new ++ l).count SCAN = l.count SCAN := by
  rw [List.count_append]
  have hz : new.count SCAN = 0 := by
    rw [List.count_eq_zero]
    intro hm
    have h0 := h _ hm
    simp [SCAN] at h0
  omega

theorem count_scan_append_single (l : List Int) :
    (l ++ [SCAN]).count SCAN = l.count SCAN + 1 := by
  rw [List.count_append]
  simp

theorem phiDeq_cons {r : REsearcher} {x : Int} {l : List Int}
    (hx : (x == SCAN) = false) :
    phiDeq r (x :: l) = wItem r x + phiDeq r l := by
  rw [phiDeq, List.takeWhile_cons_of_pos (by simp [bne, hx]), List.map_cons,
    List.sum_cons, phiDeq]

theorem phiDeq_append_nonneg {r : REsearcher} {new l : List Int}
    (h : ∀ y ∈ new, 0 ≤ y) :
    phiDeq r (new ++ l) = (new.map (wItem r)).sum + phiDeq r l := by
  rw [phiDeq, takeWhile_append_of_all (fun x hx => ?_), List.map_append,
    List.sum_append, phiDeq]
  have h0 := h x hx
  simp only [bne_iff_ne, ne_eq, decide_eq_true_eq]
  intro hc
  rw [hc] at h0
  simp [SCAN] at h0

theorem phiDeq_append_stop {r : REsearcher} {l tail : List Int}
    (h : SCAN ∈ l) :
    phiDeq r (l ++ tail) = phiDeq r l := by
  rw [phiDeq, takeWhile_append_of_stop h (by simp), phiDeq]

theorem getD_of_get {l : List String} {n : Nat} {t : String}
    (h : l.get? n = some t) : l.getD n "" = t := by
  rw [List.getD_eq_getElem?_getD, ← List.get?_eq_getElem?, h]
  rfl

/-- Inversion: an accepting verdict of is_end_br_state means both stored
successors of the state are END. -/
theorem is_end_br_true_elim (r : REsearcher) (x : Int)
    (h : is_end_br_state r x = some true) :
    r.next1.get? x.toNat = some (-1) ∧ r.next2.get? x.toNat = some (-1) := by
  rw [is_end_br_state] at h
  by_cases h1 : x < 0 || (r.state_type.length : Int) ≤ x
  · rw [if_pos h1] at h; simp at h
  · rw [if_neg h1] at h
    by_cases h2 : r.state_type.getD x.toNat "" != "BR"
    · rw [if_pos h2] at h; simp at h
    · rw [if_neg h2] at h
      cases hg1 : r.next1.get? x.toNat with
      | none => rw [hg1] at h; simp at h
      | some a =>
        rw [hg1] at h
        dsimp only at h
        by_cases h3 : a != -1
        · rw [if_pos h3] at h; simp at h
        · rw [if_neg h3] at h
          have ha : a = -1 := by simpa using h3
          cases hg2 : r.next2.get? x.toNat with
          | none => rw [hg2] at h; simp at h
          | some b =>
            rw [hg2] at h
            dsimp only at h
            injection h with h4
            have hb : b = -1 := by simpa using h4
            exact ⟨by rw [ha], by rw [hb]⟩

/-- Popping a non-SCAN item of ordinary weight and keeping the rest
preserves the invariant, keeps m12, and strictly lowers the generation
weight. -/
theorem pop_flat (r : REsearcher) (line : List Char)
    {item : Int} {rest : List Int} {pos : Nat} {consumed : Bool}
    (hItems : ∀ x ∈ item :: rest, -1 ≤ x)
    (hCnt : (item :: rest).count SCAN ≤ 1)
    (hCnt0 : (item :: rest).count SCAN = 0 → line.length ≤ pos)
    (hsf : (item == SCAN) = false)
    (hflat : isRealBRb r item = false) :
    InvM line ⟨rest, pos, consumed⟩ ∧
      m12 line ⟨rest, pos, consumed⟩ = m12 line ⟨item :: rest, pos, consumed⟩ ∧
      phiDeq r rest < phiDeq r (item :: rest) := by
  have ec : (item :: rest).count SCAN = rest.count SCAN := count_scan_cons_ne hsf
  refine ⟨⟨fun x hx => hItems x (List.mem_cons_of_mem _ hx), ?_, ?_⟩, ?_, ?_⟩
  · show rest.count SCAN ≤ 1
    omega
  · intro h0
    have h0' : rest.count SCAN = 0 := h0
    exact hCnt0 (by omega)
  · show 2 * (line.length - pos) + rest.count SCAN =
      2 * (line.length - pos) + (item :: rest).count SCAN
    omega
  · rw [phiDeq_cons hsf, wItem, hflat]
    simp only [Bool.false_eq_true, if_false]
    omega

/-- Replacing a non-SCAN consuming item by its pushed successor preserves
the invariant, keeps m12, and strictly lowers the generation weight; the
SCAN marker still in the queue shields the pushed tail item. -/
theorem pop_push_flat (r : REsearcher) (line : List Char)
    {item v : Int} {rest : List Int} {pos : Nat} {consumed : Bool}
    (hItems : ∀ x ∈ item :: rest, -1 ≤ x)
    (hCnt : (item :: rest).count SCAN ≤ 1)
    (hCnt0 : (item :: rest).count SCAN = 0 → line.length ≤ pos)
    (hsf : (item == SCAN) = false)
    (hflat : isRealBRb r item = false)
    (hv : 0 ≤ v)
    (hpos : pos < line.length) :
    InvM line ⟨rest ++ [v], pos, consumed⟩ ∧
      m12 line ⟨rest ++ [v], pos, consumed⟩ =
        m12 line ⟨item :: rest, pos, consumed⟩ ∧
      phiDeq r (rest ++ [v]) < phiDeq r (item :: rest) := by
  have ec : (item :: rest).count SCAN = rest.count SCAN := count_scan_cons_ne hsf
  have hscanrest : SCAN ∈ rest := by
    rcases Nat.eq_zero_or_pos (rest.count SCAN) with h0 | hp
    · exfalso
      have := hCnt0 (by omega)
      omega
    · exact List.count_pos_iff.mp hp
  have ev : (rest ++ [v]).count SCAN = rest.count SCAN := by
    rw [List.count_append]
    have : ([v] : List Int).count SCAN = 0 := by
      rw [List.count_eq_zero]
      intro hm
      rw [List.mem_singleton] at hm
      rw [← hm] at hv
      simp [SCAN] at hv
    omega
  have hcp : 0 < rest.count SCAN := List.count_pos_iff.mpr hscanrest
  refine ⟨⟨fun x hx => ?_, ?_, ?_⟩, ?_, ?_⟩
  · rcases List.mem_append.mp hx with h | h
    · exact hItems x (List.mem_cons_of_mem _ h)
    · rw [List.mem_singleton] at h
      rw [h]
      omega
  · show (rest ++ [v]).count SCAN ≤ 1
    omega
  · intro h0
    have h0' : (rest ++ [v]).count SCAN = 0 := h0
    show line.length ≤ pos
    omega
  · show 2 * (line.length - pos) + (rest ++ [v]).count SCAN =
      2 * (line.length - pos) + (item :: rest).count SCAN
    omega
  · rw [phiDeq_append_stop hscanrest, phiDeq_cons hsf, wItem, hflat]
    simp only [Bool.false_eq_true, if_false]
    omega

/-- One simulation step on a structurally sound machine either returns a
verdict or continues with the invariant intact, strictly decreasing the
pair (m12, phiDeq) lexicographically. -/
theorem stepSpec (r : REsearcher) (line : List Char)
    (h1 : r.next1.length = r.state_type.length)
    (h2 : r.next2.length = r.state_type.length)
    (h3 : ∀ i : Nat, i < r.state_type.length → r.state_type.getD i "" ≠ "BR" →
      ∃ v, r.next1.get? i = some v ∧ 0 ≤ v)
    (s : MState) (hInv : InvM line s) :
    (∃ b, stepMatch r line s = .ret b) ∨
    (∃ s1, stepMatch r line s = .cont s1 ∧ InvM line s1 ∧
      (m12 line s1 < m12 line s ∨
        (m12 line s1 = m12 line s ∧ phiDeq r s1.deq < phiDeq r s.deq))) := by
  obtain ⟨deq, pos, consumed⟩ := s
  obtain ⟨hItems0, hCntA, hCntB⟩ := hInv
  cases deq with
  | nil => exact Or.inl ⟨false, rfl⟩
  | cons item rest =>
    have hItems : ∀ x ∈ item :: rest, -1 ≤ x := hItems0
    have hCnt : (item :: rest).count SCAN ≤ 1 := hCntA
    have hCnt0 : (item :: rest).count SCAN = 0 → line.length ≤ pos := hCntB
    rw [stepMatch]
    dsimp only
    by_cases hscan : item == SCAN
    · rw [if_pos hscan]
      have hitem : item = SCAN := by simpa using hscan
      have e2 : (item :: rest).count SCAN = rest.count SCAN + 1 := by
        rw [hitem]
        exact count_scan_cons_self rest
      by_cases hre : rest.isEmpty
      · rw [if_pos hre]
        exact Or.inl ⟨false, rfl⟩
      · rw [if_neg hre]
        by_cases hpos : pos < line.length
        · rw [if_pos hpos]
          have e1 : (rest ++ [SCAN]).count SCAN = rest.count SCAN + 1 :=
            count_scan_append_single rest
          refine Or.inr ⟨⟨rest ++ [SCAN], pos + 1, true⟩, rfl,
            ⟨fun x hx => ?_, ?_, ?_⟩, Or.inl ?_⟩
          · rcases List.mem_append.mp hx with h | h
            · exact hItems x (List.mem_cons_of_mem _ h)
            · rw [List.mem_singleton] at h
              rw [h]
              simp [SCAN]
          · show (rest ++ [SCAN]).count SCAN ≤ 1
            omega
          · intro h0
            have h0' : (rest ++ [SCAN]).count SCAN = 0 := h0
            show line.length ≤ pos + 1
            omega
          · show 2 * (line.length - (pos + 1)) + (rest ++ [SCAN]).count SCAN <
              2 * (line.length - pos) + (item :: rest).count SCAN
            omega
        · rw [if_neg hpos]
          refine Or.inr ⟨⟨rest, pos, consumed⟩, rfl,
            ⟨fun x hx => hItems x (List.mem_cons_of_mem _ hx), ?_, ?_⟩, Or.inl ?_⟩
          · show rest.count SCAN ≤ 1
            omega
          · intro h0
            show line.length ≤ pos
            omega
          · show 2 * (line.length - pos) + rest.count SCAN <
              2 * (line.length - pos) + (item :: rest).count SCAN
            omega
    · rw [if_neg hscan]
      have hsf : (item == SCAN) = false := by simpa using hscan
      have hge : 0 ≤ item := by
        have hm1 : -1 ≤ item := hItems item (List.mem_cons_self _ _)
        have hne : item ≠ SCAN := by simpa using hscan
        have hS : SCAN = -1 := rfl
        rw [hS] at hne
        omega
      obtain ⟨eb, hend⟩ := is_end_br_some r h1 h2 item
      rw [hend]
      dsimp only
      by_cases hacc : eb && consumed
      · rw [if_pos hacc]
        exact Or.inl ⟨true, rfl⟩
      · rw [if_neg hacc]
        by_cases hlt : item < (r.state_type.length : Int)
        · rw [if_pos hlt]
          have hlt' : item.toNat < r.state_type.length := by omega
          have hx0 : ∃ t, r.state_type.get? item.toNat = some t := by
            cases hg : r.state_type.get? item.toNat with
            | none =>
              rw [List.get?_eq_none] at hg
              omega
            | some t => exact ⟨t, rfl⟩
          obtain ⟨t, hget⟩ := hx0
          have hpg : pyGet r.state_type item = some t := by
            rw [pyGet, if_pos hge]
            exact hget
          rw [hpg]
          dsimp only
          have hgetD : r.state_type.getD item.toNat "" = t := getD_of_get hget
          by_cases hbr : t == "BR"
          · rw [if_pos hbr]
            have ht' : t = "BR" := by simpa using hbr
            cases eb with
            | true =>
              obtain ⟨he1, he2⟩ := is_end_br_true_elim r item hend
              have hpgn1 : pyGet r.next1 item = some (-1) := by
                rw [pyGet, if_pos hge]
                exact he1
              rw [hpgn1]
              dsimp only
              have hadd1 : add_state r rest (-1) = some rest := by
                rw [add_state, if_pos (by norm_num : (-1 : Int) < 0)]
              rw [hadd1]
              dsimp only
              have hpgn2 : pyGet r.next2 item = some (-1) := by
                rw [pyGet, if_pos hge]
                exact he2
              rw [hpgn2]
              dsimp only
              rw [hadd1]
              have hflatI : isRealBRb r item = false := by
                simp [isRealBRb, hend]
              obtain ⟨hi, hm, hph⟩ := pop_flat r line hItems hCnt hCnt0 hsf hflatI
              exact Or.inr ⟨⟨rest, pos, consumed⟩, rfl, hi, Or.inr ⟨hm, hph⟩⟩
            | false =>
              have hx1 : ∃ v, r.next1.get? item.toNat = some v := by
                cases hg : r.next1.get? item.toNat with
                | none =>
                  rw [List.get?_eq_none] at hg
                  rw [h1] at hg
                  omega
                | some v => exact ⟨v, rfl⟩
              obtain ⟨n1v, hg1⟩ := hx1
              have hpgn1 : pyGet r.next1 item = some n1v := by
                rw [pyGet, if_pos hge]
                exact hg1
              rw [hpgn1]
              dsimp only
              obtain ⟨new1, hadd1, hflat1, hlen1⟩ := add_state_spec r h1 h2 rest n1v
              rw [hadd1]
              dsimp only
              have hx2 : ∃ v, r.next2.get? item.toNat = some v := by
                cases hg : r.next2.get? item.toNat with
                | none =>
                  rw [List.get?_eq_none] at hg
                  rw [h2] at hg
                  omega
                | some v => exact ⟨v, rfl⟩
              obtain ⟨n2v, hg2⟩ := hx2
              have hpgn2 : pyGet r.next2 item = some n2v := by
                rw [pyGet, if_pos hge]
                exact hg2
              rw [hpgn2]
              dsimp only
              obtain ⟨new2, hadd2, hflat2, hlen2⟩ :=
                add_state_spec r h1 h2 (new1 ++ rest) n2v
              rw [hadd2]
              have hn1pos : ∀ y ∈ new1, 0 ≤ y := fun y hy => (hflat1 y hy).1
              have hn2pos : ∀ y ∈ new2, 0 ≤ y := fun y hy => (hflat2 y hy).1
              have ecc : (new2 ++ (new1 ++ rest)).count SCAN = rest.count SCAN := by
                rw [count_scan_append_nonneg hn2pos, count_scan_append_nonneg hn1pos]
              have ec : (item :: rest).count SCAN = rest.count SCAN :=
                count_scan_cons_ne hsf
              have hreal : isRealBRb r item = true := by
                rw [isRealBRb, hgetD, ht', hend]
                simp [hge, hlt]
              refine Or.inr ⟨⟨new2 ++ (new1 ++ rest), pos, consumed⟩, rfl,
                ⟨fun x hx => ?_, ?_, ?_⟩, Or.inr ⟨?_, ?_⟩⟩
              · rcases List.mem_append.mp hx with h | h
                · have := (hflat2 x h).1
                  omega
                · rcases List.mem_append.mp h with h' | h'
                  · have := (hflat1 x h').1
                    omega
                  · exact hItems x (List.mem_cons_of_mem _ h')
              · show (new2 ++ (new1 ++ rest)).count SCAN ≤ 1
                omega
              · intro h0
                have h0' : (new2 ++ (new1 ++ rest)).count SCAN = 0 := h0
                show line.length ≤ pos
                exact hCnt0 (by omega)
              · show 2 * (line.length - pos) + (new2 ++ (new1 ++ rest)).count SCAN =
                  2 * (line.length - pos) + (item :: rest).count SCAN
                omega
              · show phiDeq r (new2 ++ (new1 ++ rest)) < phiDeq r (item :: rest)
                rw [phiDeq_append_nonneg hn2pos, phiDeq_append_nonneg hn1pos,
                  sum_wItem_of_flat (fun y hy => (hflat2 y hy).2),
                  sum_wItem_of_flat (fun y hy => (hflat1 y hy).2),
                  phiDeq_cons hsf, wItem, if_pos hreal]
                have hp : 2 ^ (r.state_type.length + 2) =
                    2 ^ r.state_type.length * 2 * 2 := by
                  rw [pow_succ, pow_succ]
                omega
          · rw [if_neg hbr]
            have htne : t ≠ "BR" := by simpa using hbr
            have hflatI : isRealBRb r item = false := by
              rw [isRealBRb, hgetD, beq_eq_false_iff_ne.mpr htne]
              simp
            by_cases hpos : line.length ≤ pos
            · rw [if_pos hpos]
              obtain ⟨hi, hm, hph⟩ := pop_flat r line hItems hCnt hCnt0 hsf hflatI
              exact Or.inr ⟨⟨rest, pos, consumed⟩, rfl, hi, Or.inr ⟨hm, hph⟩⟩
            · rw [if_neg hpos]
              have hpos' : pos < line.length := by omega
              have htne' : r.state_type.getD item.toNat "" ≠ "BR" := by
                rw [hgetD]
                exact htne
              obtain ⟨v, hv1, hv0⟩ := h3 item.toNat hlt' htne'
              have hpgn1 : pyGet r.next1 item = some v := by
                rw [pyGet, if_pos hge]
                exact hv1
              by_cases hwc : t == "WC"
              · rw [if_pos hwc, hpgn1]
                obtain ⟨hi, hm, hph⟩ :=
                  pop_push_flat r line hItems hCnt hCnt0 hsf hflatI hv0 hpos'
                exact Or.inr ⟨⟨rest ++ [v], pos, consumed⟩, rfl, hi, Or.inr ⟨hm, hph⟩⟩
              · rw [if_neg hwc]
                by_cases hch : t.length == 1 &&
                    t == String.singleton (line.getD pos ' ')
                · rw [if_pos hch, hpgn1]
                  obtain ⟨hi, hm, hph⟩ :=
                    pop_push_flat r line hItems hCnt hCnt0 hsf hflatI hv0 hpos'
                  exact Or.inr ⟨⟨rest ++ [v], pos, consumed⟩, rfl, hi,
                    Or.inr ⟨hm, hph⟩⟩
                · rw [if_neg hch]
                  obtain ⟨hi, hm, hph⟩ :=
                    pop_flat r line hItems hCnt hCnt0 hsf hflatI
                  exact Or.inr ⟨⟨rest, pos, consumed⟩, rfl, hi, Or.inr ⟨hm, hph⟩⟩
        · rw [if_neg hlt]
          have hflatI : isRealBRb r item = false := by
            simp [isRealBRb, hlt]
          obtain ⟨hi, hm, hph⟩ := pop_flat r line hItems hCnt hCnt0 hsf hflatI
          exact Or.inr ⟨⟨rest, pos, consumed⟩, rfl, hi, Or.inr ⟨hm, hph⟩⟩

/-- The simulation loop reaches a verdict under some fuel: nested
induction over bounds of the lexicographic measure (m12, phiDeq). -/
theorem matchLoop_term (r : REsearcher) (line : List Char)
    (h1 : r.next1.length = r.state_type.length)
    (h2 : r.next2.length = r.state_type.length)
    (h3 : ∀ i : Nat, i < r.state_type.length → r.state_type.getD i "" ≠ "BR" →
      ∃ v, r.next1.get? i = some v ∧ 0 ≤ v) :
    ∀ (M P : Nat) (s : MState), InvM line s → m12 line s ≤ M →
      phiDeq r s.deq ≤ P → ∃ f b, matchLoop r line f s = .out b := by
  intro M
  induction M with
  | zero =>
    intro P
    induction P with
    | zero =>
      intro s hInv hm hp
      rcases stepSpec r line h1 h2 h3 s hInv with ⟨b, hb⟩ | ⟨s1, hs1, hinv1, hdec⟩
      · exact ⟨0 + 1, b, by rw [matchLoop, hb]⟩
      · rcases hdec with h | ⟨he, hph⟩
        · exact absurd h (by omega)
        · exact absurd hph (by omega)
    | succ P ihP =>
      intro s hInv hm hp
      rcases stepSpec r line h1 h2 h3 s hInv with ⟨b, hb⟩ | ⟨s1, hs1, hinv1, hdec⟩
      · exact ⟨0 + 1, b, by rw [matchLoop, hb]⟩
      · rcases hdec with h | ⟨he, hph⟩
        · exact absurd h (by omega)
        · obtain ⟨f, b, hf⟩ := ihP s1 hinv1 (by omega) (by omega)
          exact ⟨f + 1, b, by rw [matchLoop, hs1]; exact hf⟩
  | succ M ihM =>
    intro P
    induction P with
    | zero =>
      intro s hInv hm hp
      rcases stepSpec r line h1 h2 h3 s hInv with ⟨b, hb⟩ | ⟨s1, hs1, hinv1, hdec⟩
      · exact ⟨0 + 1, b, by rw [matchLoop, hb]⟩
      · rcases hdec with h | ⟨he, hph⟩
        · obtain ⟨f, b, hf⟩ := ihM (phiDeq r s1.deq) s1 hinv1 (by omega) (le_refl _)
          exact ⟨f + 1, b, by rw [matchLoop, hs1]; exact hf⟩
        · exact absurd hph (by omega)
    | succ P ihP =>
      intro s hInv hm hp
      rcases stepSpec r line h1 h2 h3 s hInv with ⟨b, hb⟩ | ⟨s1, hs1, hinv1, hdec⟩
      · exact ⟨0 + 1, b, by rw [matchLoop, hb]⟩
      · rcases hdec with h | ⟨he, hph⟩
        · obtain ⟨f, b, hf⟩ := ihM (phiDeq r s1.deq) s1 hinv1 (by omega) (le_refl _)
          exact ⟨f + 1, b, by rw [matchLoop, hs1]; exact hf⟩
        · obtain ⟨f, b, hf⟩ := ihP s1 hinv1 (by omega) (by omega)
          exact ⟨f + 1, b, by rw [matchLoop, hs1]; exact hf⟩

/-- Transfer of per-state facts through the three array projections. -/
theorem maps_facts (L : List FSMState)
    (hL : ∀ s ∈ L, s.state_type ≠ "BR" → 0 ≤ s.next1) :
    ∀ i : Nat, i < (L.map (fun s => s.state_type)).length →
      (L.map (fun s => s.state_type)).getD i "" ≠ "BR" →
      ∃ v, (L.map (fun s => s.next1)).get? i = some v ∧ 0 ≤ v := by
  intro i hi hne
  rw [List.length_map] at hi
  cases hg : L.get? i with
  | none =>
    rw [List.get?_eq_none] at hg
    omega
  | some s =>
    have hmem : s ∈ L := List.get?_mem hg
    have hks : (L.map (fun s => s.state_type)).get? i = some s.state_type := by
      rw [List.get?_map, hg]
      rfl
    have hd := getD_of_get hks
    rw [hd] at hne
    refine ⟨s.next1, ?_, hL s hmem hne⟩
    rw [List.get?_map, hg]
    rfl

/-- The structural facts the simulation needs, for any compiled machine:
the three arrays have one length, and every consuming (non-Branch) state
stores a non-negative consuming successor. -/
theorem compile_searcher_facts {p : List Char} {k : List String}
    {n1 n2 : List Int} (h : compile p = .ok (k, n1, n2)) :
    n1.length = k.length ∧ n2.length = k.length ∧
    (∀ i : Nat, i < k.length → k.getD i "" ≠ "BR" →
      ∃ v, n1.get? i = some v ∧ 0 ≤ v) := by
  obtain ⟨e, sn, rest, st, hsn, hexp, hstn, hrest, hk, hn1, hn2⟩ := compile_arrays h
  have hL : ∀ s ∈ sortStates
      ((⟨0, "BR", ((e : Nat) : Int), ((e : Nat) : Int)⟩ : FSMState) ::
        (rest ++ [⟨sn, "BR", -1, -1⟩])),
      s.state_type ≠ "BR" → 0 ≤ s.next1 := by
    intro s hs hne
    have hmem := (sortStates_perm _).mem_iff.mp hs
    rcases List.mem_cons.mp hmem with h0 | hm
    · rw [h0] at hne
      exact absurd rfl hne
    · rcases List.mem_append.mp hm with hr | hacc
      · exact (hrest s hr).2.2.1
      · rw [List.mem_singleton] at hacc
        rw [hacc] at hne
        exact absurd rfl hne
  refine ⟨?_, ?_, ?_⟩
  · rw [hk, hn1, List.length_map, List.length_map]
  · rw [hk, hn2, List.length_map, List.length_map]
  · intro i hi hne
    rw [hk] at hi hne
    rw [hn1]
    exact maps_facts _ hL i hi hne

/-- C9: for every FSM produced by a successful compile, every line, and
every start offset, the per-offset simulation match_from_position
terminates with a verdict: some fuel makes it report a boolean (it never
raises and never loops forever; the source loop is unbounded, so reaching
a verdict under finite fuel is exactly termination of the per-offset
simulation). -/
theorem C9_theorem {p : List Char} {k : List String} {n1 n2 : List Int}
    (h : compile p = .ok (k, n1, n2)) (line : List Char) (start : Nat) :
    ∃ fuel b,
      match_from_position (mkSearcher (k, n1, n2)) line fuel start = .out b := by
  obtain ⟨hl1, hl2, hv1⟩ := compile_searcher_facts h
  have h1 : (mkSearcher (k, n1, n2)).next1.length =
      (mkSearcher (k, n1, n2)).state_type.length := hl1
  have h2 : (mkSearcher (k, n1, n2)).next2.length =
      (mkSearcher (k, n1, n2)).state_type.length := hl2
  have h3 : ∀ i : Nat, i < (mkSearcher (k, n1, n2)).state_type.length →
      (mkSearcher (k, n1, n2)).state_type.getD i "" ≠ "BR" →
      ∃ v, (mkSearcher (k, n1, n2)).next1.get? i = some v ∧ 0 ≤ v := hv1
  obtain ⟨new, hadd, hflat, hlen⟩ :=
    add_state_spec (mkSearcher (k, n1, n2)) h1 h2 [SCAN] 0
  have hcnt : (new ++ [SCAN]).count SCAN = 1 := by
    rw [count_scan_append_nonneg (fun y hy => (hflat y hy).1)]
    have := count_scan_cons_self ([] : List Int)
    simpa using this
  have hInv : InvM line ⟨new ++ [SCAN], start, false⟩ := by
    refine ⟨fun x hx => ?_, ?_, ?_⟩
    · rcases List.mem_append.mp hx with hxx | hxx
      · have := (hflat x hxx).1
        omega
      · rw [List.mem_singleton] at hxx
        rw [hxx]
        simp [SCAN]
    · show (new ++ [SCAN]).count SCAN ≤ 1
      omega
    · intro h0
      have h0' : (new ++ [SCAN]).count SCAN = 0 := h0
      show line.length ≤ start
      omega
  obtain ⟨f, b, hf⟩ := matchLoop_term (mkSearcher (k, n1, n2)) line h1 h2 h3
    (m12 line ⟨new ++ [SCAN], start, false⟩)
    (phiDeq (mkSearcher (k, n1, n2)) (new ++ [SCAN]))
    ⟨new ++ [SCAN], start, false⟩ hInv (le_refl _) (le_refl _)
  refine ⟨f, b, ?_⟩
  rw [match_from_position, hadd]
  exact hf

/-- Witness: the machine compiled from the one-character pattern "a", run
on the line "a" from offset 0, terminates with a verdict. -/
theorem C9_witness :
    ∃ fuel b, match_from_position
      (mkSearcher (["BR", "a", "BR"], [1, 2, -1], [1, 2, -1]))
      ['a'] fuel 0 = .out b :=
  C9_theorem (show compile ['a'] =
    .ok (["BR", "a", "BR"], [1, 2, -1], [1, 2, -1]) from rfl) ['a'] 0
